import Mathlib

/-!
# footprint: a ledger of file entries and its textual format

A shallow embedding of the Go package `footprint` (files `footprint.go` and
`entry.go`).

* Go strings and byte slices are lists of bytes; a byte is a natural number
  (every statement below that holds for all naturals holds for all bytes).
* `os.FileMode` is a `uint32`, embedded as a natural number.
* A Go function that may return an error or panic returns an `Outcome`.
* The reader/writer lock of `List` guards the entry sequence only; the
  embedding is the sequential semantics of each method (state passing).
* The standard-library functions the package calls (`bytes.Split`,
  `fmt.Sprintf`, `FileMode.String`, `bufio.Reader.ReadLine`, `bytes.Buffer`)
  are embedded from the Go standard library, next to the code that uses them.
* The operating system and the identity services (`os.Create`, `os.Stat`,
  `filepath.Abs`, `os/user`) are a parameter of the code that calls them, a
  `Host` over a state of the file system.
-/

/-- A byte of a Go string or byte slice. -/
abbrev Byte := Nat

/-- A Go string or byte slice. -/
abbrev Bytes := List Byte

/-- The bytes of an ASCII string literal. -/
def ascii (s : String) : Bytes := s.toList.map Char.toNat

/-- The result of running a Go function: a returned value, a returned error,
a runtime panic, or (for the embedding of an unbounded loop) exhausted fuel. -/
inductive Outcome (ε α : Type) where
  | ok (a : α)
  | error (e : ε)
  | panic
  | outOfFuel
deriving DecidableEq, Repr

/-! ## entry.go -/

/-- Entry represents an entry of a file into our List. -/
structure Entry where
  Perms : Nat
  Path : Bytes
  Uid : Bytes
  Gid : Bytes
deriving DecidableEq, Repr

/-- A sequence of entries (a Go slice of Entry). -/
abbrev EntrySeq := List Entry

/-- The characters of the mode bits 31 down to 19 in `FileMode.String`. -/
def FileMode.str : Bytes := ascii "dalTLDpSugct?"

/-- The characters of the permission bits 8 down to 0 in `FileMode.String`. -/
def FileMode.rwx : Bytes := ascii "rwxrwxrwx"

/-- First loop of `FileMode.String`: `for i, c := range str`, appending `c`
when `m&(1<<uint(32-1-i)) != 0`. -/
def FileMode.typeLoop (m : Nat) : Nat → Bytes → Bytes
  | _, [] => []
  | i, c :: cs =>
    if m &&& (1 <<< (32 - 1 - i)) ≠ 0 then c :: FileMode.typeLoop m (i + 1) cs
    else FileMode.typeLoop m (i + 1) cs

/-- Second loop of `FileMode.String`: `for i, c := range rwx`, appending `c`
when `m&(1<<uint(9-1-i)) != 0` and `-` otherwise. -/
def FileMode.rwxLoop (m : Nat) : Nat → Bytes → Bytes
  | _, [] => []
  | i, c :: cs =>
    (if m &&& (1 <<< (9 - 1 - i)) ≠ 0 then c else 45) :: FileMode.rwxLoop m (i + 1) cs

/-- The method `String` of `os.FileMode` (Go standard library, `io/fs`). -/
def FileMode.String (m : Nat) : Bytes :=
  let buf := FileMode.typeLoop m 0 FileMode.str
  let buf := if buf.length = 0 then [45] else buf
  buf ++ FileMode.rwxLoop m 0 FileMode.rwx

/-- The function `fmt.Sprintf` for a format whose only verb is `%s` and whose
operands are strings, one for each verb. -/
def Sprintf : Bytes → List Bytes → Bytes
  | [], _ => []
  | [c], _ => [c]
  | c :: d :: fmt, args =>
    if c = 37 ∧ d = 115 then
      match args with
      | a :: rest => a ++ Sprintf fmt rest
      | [] => ascii "%!s(MISSING)" ++ Sprintf fmt []
    else c :: Sprintf (d :: fmt) args

/-- String returns the representation of the Entry as a tab-delimited format. -/
def Entry.String (e : Entry) : Bytes :=
  Sprintf (ascii "%s\t%s/%s\t%s") [FileMode.String e.Perms, e.Uid, e.Gid, e.Path]

/-! ## footprint.go: the ledger -/

/-- List represents a list of entries that a program may use. -/
structure footprint.List where
  entries : EntrySeq
deriving DecidableEq, Repr

/-- Len returns the current number of entries stored within the List. -/
def footprint.List.Len (l : footprint.List) : Nat := l.entries.length

/-- Add registers a file with the List: `l.entries = append(l.entries, e)`. -/
def footprint.List.Add (l : footprint.List) (e : Entry) : footprint.List :=
  { entries := l.entries ++ [e] }

/-- An `io.Writer`: `Write` takes the state of the destination and the bytes
and gives the new state and the error, if any (its message). -/
structure GoWriter (σ : Type) where
  Write : σ → Bytes → σ × Option Bytes

/-- The writer `bytes.Buffer`: `Write` appends and its error is always nil. -/
def bytesBuffer : GoWriter Bytes := ⟨fun buf p => (buf ++ p, none)⟩

/-- The loop of `List.write` over the entries: each entry's `String()` and a
newline are written; the first failing `Write` ends the loop with the wrapped
error. -/
def footprint.writeLoop {σ : Type} (w : GoWriter σ) : σ → EntrySeq → σ × Option Bytes
  | st, [] => (st, none)
  | st, elem :: rest =>
    match w.Write st (elem.String ++ [10]) with
    | (st1, some err) => (st1, some (ascii "failed to write to file: " ++ err))
    | (st1, none) => footprint.writeLoop w st1 rest

/-- The method `write` outputs the representation of the file to an io.Writer. -/
def footprint.List.write {σ : Type} (l : footprint.List) (w : GoWriter σ) (st : σ) :
    σ × Option Bytes :=
  footprint.writeLoop w st l.entries

/-- String writes out a representation of the List to a string. -/
def footprint.List.String (l : footprint.List) : Bytes :=
  if l.Len = 0 then []
  else
    match l.write bytesBuffer [] with
    | (_, some err) => err
    | (buf, none) => buf

/-! ## footprint.go: parsing -/

/-- The errors of `parsePerms`. -/
inductive PermErr where
  | invalidLen
  | invalidChar (c : Byte)
deriving DecidableEq, Repr

/-- Inner loop of `parsePerms`: `for j := 0; j < 3; j++` over `s[i+j]`, given
as the list of the remaining values of `j`. -/
def permInner (s : Bytes) (i : Nat) : List Nat → Nat → Outcome PermErr Nat
  | [], count => .ok count
  | j :: js, count =>
    match s[i + j]? with
    | none => .panic
    | some c =>
      if c = 114 then permInner s i js (count + 4)
      else if c = 119 then permInner s i js (count + 2)
      else if c = 120 then permInner s i js (count + 1)
      else if c = 45 then permInner s i js count
      else .error (.invalidChar c)

/-- Outer loop of `parsePerms`: `for i := 1; i < len(s); i += 3`, given as the
list of the remaining values of `i`. -/
def permOuter (s : Bytes) : List Nat → Nat → Outcome PermErr Nat
  | [], sum => .ok sum
  | i :: is, sum =>
    match permInner s i [0, 1, 2] 0 with
    | .ok count => permOuter s is (sum + count * (1 <<< (6 - (i - 1))))
    | .error e => .error e
    | .panic => .panic
    | .outOfFuel => .outOfFuel

/-- The values `i` takes in `for i := 1; i < n; i += 3`. -/
def permIndices (n : Nat) : List Nat :=
  (List.range n).filter (fun i => 1 ≤ i ∧ (i - 1) % 3 = 0)

/-- The function parsePerms parses the Unix permission bits from a string. -/
def parsePerms (s : Bytes) : Outcome PermErr Nat :=
  if s.length ≠ (ascii "drwxr-xr-x").length then .error .invalidLen
  else
    match permOuter s (permIndices s.length) 0 with
    | .ok sum => .ok (sum % 2 ^ 32)
    | r => r

/-- The function `bytes.IndexByte`: the index of the first `c` in `b`. -/
def IndexByte : Bytes → Byte → Option Nat
  | [], _ => none
  | b :: bs, c => if b = c then some 0 else (IndexByte bs c).map (· + 1)

/-- Puts a byte in front of the first part of a split. -/
def Split.push (b : Byte) : List Bytes → List Bytes
  | [] => [[b]]
  | p :: ps => (b :: p) :: ps

/-- The function `bytes.Split` for a separator of one byte: the subslices
between the separators (one more than the number of separators). -/
def Split (sep : Byte) : Bytes → List Bytes
  | [] => [[]]
  | b :: bs => if b = sep then [] :: Split sep bs else Split.push b (Split sep bs)

/-- The size of the buffer of `bufio.NewReader`. -/
def defaultBufSize : Nat := 4096

/-- The errors a `bufio.Reader` over an in-memory stream gives. -/
inductive ReadErr where
  | EOF
  | ErrBufferFull
deriving DecidableEq, Repr

/-- The method `ReadSlice` of a `bufio.Reader` of buffer size `size` over an
in-memory stream (`bytes.Buffer`, as in the tests), whose bytes not yet returned
(buffered or still in the stream) are `rest`. `ReadSlice` searches the buffer,
and while the delimiter is not there and the buffer is not full it slides the
buffered bytes to the start and fills the buffer from the stream; so it sees
the first `size` bytes of `rest`. It returns the bytes up to and including the
first `delim` when it is among them; otherwise the whole buffer with
`ErrBufferFull` when `size` bytes are there, and all the bytes with `EOF` when
the stream ends before. Returns the slice, the bytes left and the error. -/
def ReadSlice (size : Nat) (rest : Bytes) (delim : Byte) : Bytes × Bytes × Option ReadErr :=
  match IndexByte (rest.take size) delim with
  | some i => (rest.take (i + 1), rest.drop (i + 1), none)
  | none =>
    if rest.length < size then (rest, [], some .EOF)
    else (rest.take size, rest.drop size, some .ErrBufferFull)

/-- The method `ReadLine` of the `bufio.Reader` made by `bufio.NewReader`.
On `ErrBufferFull` the buffer is returned as the beginning of a line, a final
carriage return being put back for the next call; otherwise the line is
returned without its `\n` or `\r\n`. Returns the line, the flag that the line
is only the beginning of a line too long for the buffer, the error, and the
bytes left. -/
def ReadLine (rest : Bytes) : Bytes × Bool × Option ReadErr × Bytes :=
  match ReadSlice defaultBufSize rest 10 with
  | (line, rest1, err) =>
    if err = some .ErrBufferFull then
      if 0 < line.length ∧ line.getLast? = some 13 then
        (line.take (line.length - 1), true, none, 13 :: rest1)
      else (line, true, none, rest1)
    else if line.length = 0 then
      (if err ≠ none then [] else line, false, err, rest1)
    else if line.getLast? = some 10 then
      let drop := if 1 < line.length ∧ line.get? (line.length - 2) = some 13 then 2 else 1
      (line.take (line.length - drop), false, none, rest1)
    else (line, false, none, rest1)

/-- The errors of `Parse`. -/
inductive ParseErr where
  | readLine (e : ReadErr)
  | improperlySeparated (line : Bytes)
  | permissionBits (e : PermErr)
deriving DecidableEq, Repr

/-- The body of the loop of `Parse` after a line was read: the entry of the
line, an error, or the panic of `owners[1]` out of range. -/
def Parse.line (line : Bytes) : Outcome ParseErr Entry :=
  match Split 9 line with
  | [p0, p1, p2] =>
    match parsePerms p0 with
    | .ok perms =>
      let owners := Split 47 p1
      match owners[0]?, owners[1]? with
      | some o0, some o1 => .ok { Perms := perms, Path := p2, Uid := o0, Gid := o1 }
      | _, _ => .panic
    | .error e => .error (.permissionBits e)
    | .panic => .panic
    | .outOfFuel => .outOfFuel
  | _ => .error (.improperlySeparated line)

/-- The loop of `Parse`: `rest` is what the reader has not yet returned and
`entries` the entries so far. Every round consumes at least one byte, so a
fuel above the length of `rest` is never exhausted. -/
def Parse.loop : Nat → Bytes → EntrySeq → Outcome ParseErr footprint.List
  | 0, _, _ => .outOfFuel
  | fuel + 1, rest, entries =>
    match ReadLine rest with
    | (_, _, some err, _) =>
      if err ≠ .EOF then .error (.readLine err) else .ok { entries := entries }
    | (line, _, none, rest1) =>
      match Parse.line line with
      | .ok e => Parse.loop fuel rest1 (entries ++ [e])
      | .error err => .error err
      | .panic => .panic
      | .outOfFuel => .outOfFuel

/-- Parse reads in a List from a given reader, here a reader over the bytes
`input`. -/
def Parse (input : Bytes) : Outcome ParseErr footprint.List :=
  Parse.loop (input.length + 1) input []

/-! ## Predicates and functions used in the statements -/

/-- The bytes the switch of `parsePerms` accepts: `r`, `w`, `x` and `-`. -/
def isPermChar (c : Byte) : Prop := c = 114 ∨ c = 119 ∨ c = 120 ∨ c = 45

instance : DecidablePred isPermChar := fun c => by
  unfold isPermChar
  infer_instance

/-- The amount the switch of `parsePerms` adds to `count` for an accepted
byte: 4 for `r`, 2 for `w`, 1 for `x` and 0 for `-`. -/
def permWeight (c : Byte) : Nat :=
  if c = 114 then 4 else if c = 119 then 2 else if c = 120 then 1 else 0

/-- Some byte at positions 1 to 9 of `s` is not a permission character. -/
def hasBadPermChar (s : Bytes) : Prop :=
  ∃ i, 1 ≤ i ∧ i ≤ 9 ∧ ∃ c, s[i]? = some c ∧ ¬ isPermChar c

/-- The sum of the weights of the three bytes of `s` from position `i`: what
the group starting at `i` adds to `count` in `parsePerms`. -/
def permGroup (s : Bytes) (i : Nat) : Nat :=
  permWeight (s.getD i 0) + permWeight (s.getD (i + 1) 0) + permWeight (s.getD (i + 2) 0)

/-- The group of `s` starting at position `i` has the form `FileMode.String`
renders: `r` or `-`, then `w` or `-`, then `x` or `-`. -/
def isCanonicalGroup (s : Bytes) (i : Nat) : Prop :=
  (s.getD i 0 = 114 ∨ s.getD i 0 = 45) ∧ (s.getD (i + 1) 0 = 119 ∨ s.getD (i + 1) 0 = 45) ∧
    (s.getD (i + 2) 0 = 120 ∨ s.getD (i + 2) 0 = 45)

/-- At most one of the thirteen mode bits that `FileMode.String` renders as a
letter of `dalTLDpSugct?` (bits 31 down to 19) is set in `m`. -/
def hasOneTypeBitAtMost (m : Nat) : Prop :=
  ∀ i j, i < 13 → j < 13 → m &&& (1 <<< (32 - 1 - i)) ≠ 0 →
    m &&& (1 <<< (32 - 1 - j)) ≠ 0 → i = j

/-- The line of a newline-terminated piece of text: the piece without one
carriage return before the newline, if there is one (the end of a line is
`\n` or `\r\n`). -/
def chomp (seg : Bytes) : Bytes :=
  if seg.getLast? = some 13 then seg.dropLast else seg

/-- The text made of the pieces `segs`, each followed by a newline, and of
`last`, what follows the last newline (empty when the text is empty or ends
with a newline). Every text is of this form, for pieces without newline. -/
def textOf (segs : List Bytes) (last : Bytes) : Bytes :=
  (segs.map (fun s => s ++ [10])).flatten ++ last

/-- The lines of the text `textOf segs last`: the newline-terminated pieces
without their end of line, and `last` when it is not empty. -/
def linesOf (segs : List Bytes) (last : Bytes) : List Bytes :=
  segs.map chomp ++ (if last = [] then [] else [last])

/-- Every piece of the text `textOf segs last` is free of newlines and shorter
than the buffer of the reader, so that each newline is found within the
buffer. -/
def shortLines (segs : List Bytes) (last : Bytes) : Prop :=
  (∀ s ∈ segs, 10 ∉ s ∧ s.length < defaultBufSize) ∧ 10 ∉ last ∧ last.length < defaultBufSize

/-- The loop of `Parse` over lines already read: the entry of each line is
appended until a line gives an error or a panic. -/
def Parse.lines : List Bytes → EntrySeq → Outcome ParseErr footprint.List
  | [], entries => .ok { entries := entries }
  | l :: ls, entries =>
    match Parse.line l with
    | .ok e => Parse.lines ls (entries ++ [e])
    | .error err => .error err
    | .panic => .panic
    | .outOfFuel => .outOfFuel

/-- The entry `e` is the one of the line `l`: the line has exactly three
tab-separated fields, `parsePerms` of field 0 is `e.Perms`, field 1 has exactly
the two `/`-separated parts `e.Uid` and `e.Gid`, and field 2 is `e.Path`. -/
def isEntryOfLine (l : Bytes) (e : Entry) : Prop :=
  ∃ p0 p1 p2, Split 9 l = [p0, p1, p2] ∧ parsePerms p0 = .ok e.Perms ∧
    Split 47 p1 = [e.Uid, e.Gid] ∧ e.Path = p2

/-- The line does not split into exactly three tab-separated fields, or
`parsePerms` rejects its permission field (field 0). -/
def isMalformedLine (l : Bytes) : Prop :=
  (Split 9 l).length ≠ 3 ∨ ∃ e, parsePerms ((Split 9 l).getD 0 []) = .error e

/-- The owner/group field (field 1) of the line has no `/`. -/
def lacksSlash (l : Bytes) : Prop := 47 ∉ (Split 9 l).getD 1 []

/-- The entry is well-formed for the textual format: permission bits within
`0o777`; owner, group and path without tab or newline; owner and group
without `/`. -/
def isWellFormedEntry (e : Entry) : Prop :=
  e.Perms ≤ 0o777 ∧ (9 ∉ e.Uid ∧ 10 ∉ e.Uid ∧ 47 ∉ e.Uid) ∧
    (9 ∉ e.Gid ∧ 10 ∉ e.Gid ∧ 47 ∉ e.Gid) ∧ (9 ∉ e.Path ∧ 10 ∉ e.Path)

/-! ## Example inputs -/

/-- The first 4096 bytes of a line whose path is made of the letter `a`: a
valid permission field, the owner/group field `u/g` and 4081 bytes of path. -/
def fullChunk : Bytes := ascii "----------\tu/g\t" ++ List.replicate 4081 97

/-- The entry of the 4096 bytes `fullChunk`. -/
def fullChunkEntry : Entry :=
  { Perms := 0, Path := List.replicate 4081 97, Uid := ascii "u", Gid := ascii "g" }

/-- A line of 4111 bytes with three tab-separated fields: a valid permission
field, the owner/group field `u/g` and a path of 4096 bytes. Its first 4096
bytes are `fullChunk`. -/
def longLine : Bytes := ascii "----------\tu/g\t" ++ List.replicate 4096 97

/-- The entry of the line `longLine`, well-formed, with a path of 4096 bytes. -/
def longEntry : Entry :=
  { Perms := 0, Path := List.replicate 4096 97, Uid := ascii "u", Gid := ascii "g" }

/-- A line of 4113 bytes with five tab-separated fields: the 4096 bytes of
`fullChunk` followed by the text of a well-formed line. -/
def longMalformedLine : Bytes := fullChunk ++ ascii "----------\tu/g\tb"

instance : DecidablePred isWellFormedEntry := fun e => by
  unfold isWellFormedEntry
  infer_instance

instance (segs : List Bytes) (last : Bytes) : Decidable (shortLines segs last) := by
  unfold shortLines
  infer_instance

/-! ## entry.go and footprint.go: the operating system -/

/-- What `os.Stat` reports of a file on a Unix system: its mode and the numeric
owner and group of `info.Sys().(*syscall.Stat_t)`. -/
structure FileInfo where
  Mode : Nat
  Uid : Nat
  Gid : Nat
deriving DecidableEq, Repr

/-- An open file (`*os.File`); `name` is what `f.Name()` returns, the name the
file was created with. -/
structure File where
  name : Bytes
deriving DecidableEq, Repr

/-- The operating system and identity services the package calls, over a state
`σ` of the file system: each call returns a value or an error (its message).
`Create` is `os.Create` and changes the state; `Stat` is `os.Stat`, `Abs` is
`filepath.Abs`, `LookupId` gives the `Username` of `user.LookupId` and
`LookupGroupId` the `Name` of `user.LookupGroupId`. -/
structure Host (σ : Type) where
  Create : σ → Bytes → σ × Except Bytes File
  Stat : σ → Bytes → Except Bytes FileInfo
  Abs : σ → Bytes → Except Bytes Bytes
  LookupId : σ → Bytes → Except Bytes Bytes
  LookupGroupId : σ → Bytes → Except Bytes Bytes

/-- The function `strconv.FormatUint(n, 10)`: the decimal digits of `n`. -/
def FormatUint (n : Nat) : Bytes := (Nat.toDigits 10 n).map Char.toNat

/-- MakeEntry returns an entry parsed from a given file. The permissions are
`info.Mode().Perm()`, the mode masked by `0o777`. -/
def MakeEntry {σ : Type} (sys : Host σ) (st : σ) (f : File) : Except Bytes Entry :=
  match sys.Stat st f.name with
  | .error err => .error err
  | .ok info =>
    match sys.Abs st f.name with
    | .error err => .error err
    | .ok path =>
      match sys.LookupId st (FormatUint info.Uid) with
      | .error err => .error err
      | .ok uid =>
        match sys.LookupGroupId st (FormatUint info.Gid) with
        | .error err => .error err
        | .ok gid => .ok { Path := path, Perms := info.Mode &&& 0o777, Uid := uid, Gid := gid }

/-- Create wraps os.Create in order to add the file as an entry in the middle
of the creation step. Returns the state of the file system and the ledger
after the call, and the file or the error. -/
def footprint.List.Create {σ : Type} (l : footprint.List) (sys : Host σ) (st : σ)
    (name : Bytes) : σ × footprint.List × Except Bytes File :=
  match sys.Create st name with
  | (st1, .error err) => (st1, l, .error err)
  | (st1, .ok file) =>
    match MakeEntry sys st1 file with
    | .error err => (st1, l, .error err)
    | .ok entry => (st1, l.Add entry, .ok file)

/-- Validate verifies that all entries have information accurate to what is
stored in the List; currently unimplemented. Returns the ledger after the call
and the error (nil). -/
def footprint.List.Validate (l : footprint.List) : footprint.List × Option Bytes :=
  (l, none)

/-- Remove deletes an entry from the List; currently unimplemented. Returns
the ledger after the call and the error (nil). -/
def footprint.List.Remove (l : footprint.List) (_name : Bytes) :
    footprint.List × Option Bytes :=
  (l, none)

/-- A call of a method of the ledger. -/
inductive Call where
  | Len
  | Validate
  | Remove (name : Bytes)
  | Add (e : Entry)
deriving DecidableEq, Repr

/-- What a call of a method of the ledger returns: the number of `Len`, the
error of `Validate` or `Remove`, or nothing for `Add`. -/
inductive Reply where
  | len (n : Nat)
  | err (e : Option Bytes)
  | done
deriving DecidableEq, Repr

/-- A sequence of calls. -/
abbrev CallSeq := List Call

/-- A sequence of replies. -/
abbrev ReplySeq := List Reply

/-- One call on the ledger: the ledger after the call and what it returns. -/
def footprint.List.call (l : footprint.List) : Call → footprint.List × Reply
  | .Len => (l, .len l.Len)
  | .Validate => ((l.Validate).1, .err (l.Validate).2)
  | .Remove name => ((l.Remove name).1, .err (l.Remove name).2)
  | .Add e => (l.Add e, .done)

/-- A sequence of calls on the ledger, one after the other: the ledger after
the last call and what the calls returned. -/
def footprint.List.run (l : footprint.List) : CallSeq → footprint.List × ReplySeq
  | [] => (l, [])
  | c :: cs =>
    ((footprint.List.run (l.call c).1 cs).1,
      (l.call c).2 :: (footprint.List.run (l.call c).1 cs).2)

/-! ## Further predicates and example inputs -/

/-- Owner, group and path of the entry contain no tab and no newline. -/
def hasPlainFields (e : Entry) : Prop :=
  (9 ∉ e.Uid ∧ 10 ∉ e.Uid) ∧ (9 ∉ e.Gid ∧ 10 ∉ e.Gid) ∧ (9 ∉ e.Path ∧ 10 ∉ e.Path)

instance : DecidablePred hasPlainFields := fun e => by
  unfold hasPlainFields
  infer_instance

/-- A well-formed record of 4095 bytes, one less than the buffer: a valid
permission field, the owner/group field `u/g` and 4080 bytes of path. -/
def cutRecord : Bytes := ascii "----------\tu/g\t" ++ List.replicate 4080 97

/-- The entry of the record `cutRecord`. -/
def cutRecordEntry : Entry :=
  { Perms := 0, Path := List.replicate 4080 97, Uid := ascii "u", Gid := ascii "g" }

/-- A host for examples: creating a file fails for the empty name; every file
has mode `0o644` and owner 0, and group 0 unless its name is `orphan`; the
working directory is `/tmp`; user 0 is `root` and group 0 is `wheel`, and no
other user or group is known. -/
def exampleHost : Host Unit where
  Create := fun st name =>
    if name = [] then (st, .error (ascii "open : no such file or directory"))
    else (st, .ok { name := name })
  Stat := fun _ name =>
    .ok { Mode := 0o644, Uid := 0, Gid := if name = ascii "orphan" then 99 else 0 }
  Abs := fun _ name => .ok (ascii "/tmp/" ++ name)
  LookupId := fun _ id =>
    if id = ascii "0" then .ok (ascii "root") else .error (ascii "user: unknown userid")
  LookupGroupId := fun _ id =>
    if id = ascii "0" then .ok (ascii "wheel") else .error (ascii "group: unknown groupid")

/-- A line of 4110 bytes with three tab-separated fields: a valid permission
field, an owner/group field of 4096 bytes without `/`, and the path `/p`. -/
def longOwnerLine : Bytes := ascii "----------\t" ++ List.replicate 4096 97 ++ ascii "\t/p"

/-- A line of 4117 bytes with three tab-separated fields: a valid permission
field, the owner/group field `u/g/extra` of three parts, and a path of 4096
bytes. -/
def longExtraLine : Bytes := ascii "----------\tu/g/extra\t" ++ List.replicate 4096 97

/-! ## Lemmas on parsePerms -/

theorem permWeight_le (c : Byte) : permWeight c ≤ 4 := by
  unfold permWeight
  split_ifs <;> omega

theorem permInner_nil (s : Bytes) (i count : Nat) :
    permInner s i [] count = .ok count := rfl

theorem permInner_cons (s : Bytes) (i j : Nat) (js : List Nat) (count : Nat) :
    permInner s i (j :: js) count =
      match s[i + j]? with
      | none => .panic
      | some c =>
        if isPermChar c then permInner s i js (count + permWeight c)
        else .error (.invalidChar c) := by
  rw [permInner]
  cases s[i + j]? with
  | none => rfl
  | some c =>
    simp only [isPermChar, permWeight]
    split_ifs <;> simp_all

/-- The value of `parsePerms` on a string of ten bytes, as a chain of tests of
the bytes at positions 1 to 9. -/
theorem parsePerms_ten (c0 c1 c2 c3 c4 c5 c6 c7 c8 c9 : Byte) :
    parsePerms [c0, c1, c2, c3, c4, c5, c6, c7, c8, c9] =
      if ¬ isPermChar c1 then .error (.invalidChar c1)
      else if ¬ isPermChar c2 then .error (.invalidChar c2)
      else if ¬ isPermChar c3 then .error (.invalidChar c3)
      else if ¬ isPermChar c4 then .error (.invalidChar c4)
      else if ¬ isPermChar c5 then .error (.invalidChar c5)
      else if ¬ isPermChar c6 then .error (.invalidChar c6)
      else if ¬ isPermChar c7 then .error (.invalidChar c7)
      else if ¬ isPermChar c8 then .error (.invalidChar c8)
      else if ¬ isPermChar c9 then .error (.invalidChar c9)
      else .ok (64 * (permWeight c1 + permWeight c2 + permWeight c3)
        + 8 * (permWeight c4 + permWeight c5 + permWeight c6)
        + (permWeight c7 + permWeight c8 + permWeight c9)) := by
  have hidx : permIndices 10 = [1, 4, 7] := by decide
  have hlen : (ascii "drwxr-xr-x").length = 10 := by decide
  have h1 := permWeight_le c1
  have h2 := permWeight_le c2
  have h3 := permWeight_le c3
  have h4 := permWeight_le c4
  have h5 := permWeight_le c5
  have h6 := permWeight_le c6
  have h7 := permWeight_le c7
  have h8 := permWeight_le c8
  have h9 := permWeight_le c9
  simp only [parsePerms, hlen, List.length_cons, List.length_nil, hidx, permOuter,
    permInner_cons, permInner_nil]
  simp only [Nat.zero_add, Nat.reduceAdd, Nat.reduceSub, List.getElem?_cons_succ,
    List.getElem?_cons_zero, ne_eq, not_true_eq_false, if_false, Nat.reduceShiftLeft,
    Nat.reducePow]
  by_cases p1 : isPermChar c1
  case neg => simp only [p1, if_false, not_false_eq_true, if_true]
  by_cases p2 : isPermChar c2
  case neg => simp only [p1, p2, if_false, not_false_eq_true, if_true, not_true_eq_false]
  by_cases p3 : isPermChar c3
  case neg => simp only [p1, p2, p3, if_false, not_false_eq_true, if_true, not_true_eq_false]
  by_cases p4 : isPermChar c4
  case neg => simp only [p1, p2, p3, p4, if_false, not_false_eq_true, if_true, not_true_eq_false]
  by_cases p5 : isPermChar c5
  case neg =>
    simp only [p1, p2, p3, p4, p5, if_false, not_false_eq_true, if_true, not_true_eq_false]
  by_cases p6 : isPermChar c6
  case neg =>
    simp only [p1, p2, p3, p4, p5, p6, if_false, not_false_eq_true, if_true, not_true_eq_false]
  by_cases p7 : isPermChar c7
  case neg =>
    simp only [p1, p2, p3, p4, p5, p6, p7, if_false, not_false_eq_true, if_true,
      not_true_eq_false]
  by_cases p8 : isPermChar c8
  case neg =>
    simp only [p1, p2, p3, p4, p5, p6, p7, p8, if_false, not_false_eq_true, if_true,
      not_true_eq_false]
  by_cases p9 : isPermChar c9
  case neg =>
    simp only [p1, p2, p3, p4, p5, p6, p7, p8, p9, if_false, not_false_eq_true, if_true,
      not_true_eq_false]
  simp only [p1, p2, p3, p4, p5, p6, p7, p8, p9, if_false, not_false_eq_true, if_true,
    not_true_eq_false]
  refine congrArg _ ?_
  omega

theorem length_ten (s : Bytes) (h : s.length = 10) :
    ∃ c0 c1 c2 c3 c4 c5 c6 c7 c8 c9, s = [c0, c1, c2, c3, c4, c5, c6, c7, c8, c9] := by
  match s, h with
  | [c0, c1, c2, c3, c4, c5, c6, c7, c8, c9], _ =>
    exact ⟨c0, c1, c2, c3, c4, c5, c6, c7, c8, c9, rfl⟩

theorem hasBadPermChar_ten (c0 c1 c2 c3 c4 c5 c6 c7 c8 c9 : Byte) :
    hasBadPermChar [c0, c1, c2, c3, c4, c5, c6, c7, c8, c9] ↔
      (¬ isPermChar c1 ∨ ¬ isPermChar c2 ∨ ¬ isPermChar c3 ∨ ¬ isPermChar c4 ∨
        ¬ isPermChar c5 ∨ ¬ isPermChar c6 ∨ ¬ isPermChar c7 ∨ ¬ isPermChar c8 ∨
        ¬ isPermChar c9) := by
  constructor
  · rintro ⟨i, h1, h9, c, hc, hn⟩
    interval_cases i <;> simp at hc <;> subst hc <;> simp [hn]
  · rintro (h | h | h | h | h | h | h | h | h)
    · exact ⟨1, by omega, by omega, c1, rfl, h⟩
    · exact ⟨2, by omega, by omega, c2, rfl, h⟩
    · exact ⟨3, by omega, by omega, c3, rfl, h⟩
    · exact ⟨4, by omega, by omega, c4, rfl, h⟩
    · exact ⟨5, by omega, by omega, c5, rfl, h⟩
    · exact ⟨6, by omega, by omega, c6, rfl, h⟩
    · exact ⟨7, by omega, by omega, c7, rfl, h⟩
    · exact ⟨8, by omega, by omega, c8, rfl, h⟩
    · exact ⟨9, by omega, by omega, c9, rfl, h⟩

theorem parsePerms_length (s : Bytes) (h : s.length ≠ 10) :
    parsePerms s = .error .invalidLen := by
  have hlen : (ascii "drwxr-xr-x").length = 10 := by decide
  simp [parsePerms, hlen, h]


theorem and_shiftLeft_ne_zero (m k : Nat) :
    m &&& (1 <<< k) ≠ 0 ↔ m / 2 ^ k % 2 = 1 := by
  rw [Nat.one_shiftLeft, Nat.and_two_pow]
  cases h : m.testBit k
  · have h2 : ¬ (m / 2 ^ k % 2 = 1) := by
      rw [Nat.testBit_to_div_mod] at h
      simpa using h
    simp [h2]
  · have h2 : m / 2 ^ k % 2 = 1 := by
      rw [Nat.testBit_to_div_mod] at h
      simpa using h
    simp [h2]

theorem rwxLoop_eq (m : Nat) :
    FileMode.rwxLoop m 0 FileMode.rwx =
      [if m / 256 % 2 = 1 then 114 else 45, if m / 128 % 2 = 1 then 119 else 45,
        if m / 64 % 2 = 1 then 120 else 45, if m / 32 % 2 = 1 then 114 else 45,
        if m / 16 % 2 = 1 then 119 else 45, if m / 8 % 2 = 1 then 120 else 45,
        if m / 4 % 2 = 1 then 114 else 45, if m / 2 % 2 = 1 then 119 else 45,
        if m % 2 = 1 then 120 else 45] := by
  have hrwx : FileMode.rwx = [114, 119, 120, 114, 119, 120, 114, 119, 120] := by decide
  simp only [hrwx, FileMode.rwxLoop, and_shiftLeft_ne_zero]
  simp

theorem octal_digit (x : Nat) (hx : x ≤ 7) : 4 * (x / 4 % 2) + 2 * (x / 2 % 2) + 1 * (x % 2) = x := by
  omega

theorem octal_digits (m : Nat) (hm : m ≤ 511) :
    64 * (4 * (m / 256 % 2) + 2 * (m / 128 % 2) + 1 * (m / 64 % 2)) +
      8 * (4 * (m / 32 % 2) + 2 * (m / 16 % 2) + 1 * (m / 8 % 2)) +
      (4 * (m / 4 % 2) + 2 * (m / 2 % 2) + 1 * (m % 2)) = m := by
  have a1 : m / 256 % 2 = m / 64 / 4 % 2 := by omega
  have a2 : m / 128 % 2 = m / 64 / 2 % 2 := by omega
  have b1 : m / 32 % 2 = m / 8 % 8 / 4 % 2 := by omega
  have b2 : m / 16 % 2 = m / 8 % 8 / 2 % 2 := by omega
  have b3 : m / 8 % 2 = m / 8 % 8 % 2 := by omega
  have c1 : m / 4 % 2 = m % 8 / 4 % 2 := by omega
  have c2 : m / 2 % 2 = m % 8 / 2 % 2 := by omega
  have c3 : m % 2 = m % 8 % 2 := by omega
  rw [a1, a2, b1, b2, b3, c1, c2, c3, octal_digit (m / 64) (by omega),
    octal_digit (m / 8 % 8) (by omega), octal_digit (m % 8) (by omega)]
  omega

theorem rwx_inverse_aux (m : Nat) (hm : m ≤ 0o777) (c : Byte) :
    parsePerms (c :: FileMode.rwxLoop m 0 FileMode.rwx) = .ok m := by
  rw [rwxLoop_eq, parsePerms_ten]
  have e1 : ∀ (p : Prop) [Decidable p], isPermChar (if p then 114 else 45) := by
    intro p _
    split_ifs <;> simp [isPermChar]
  have e2 : ∀ (p : Prop) [Decidable p], isPermChar (if p then 119 else 45) := by
    intro p _
    split_ifs <;> simp [isPermChar]
  have e3 : ∀ (p : Prop) [Decidable p], isPermChar (if p then 120 else 45) := by
    intro p _
    split_ifs <;> simp [isPermChar]
  have w1 : ∀ (p : Prop) [Decidable p], permWeight (if p then 114 else 45) = if p then 4 else 0 := by
    intro p _
    split_ifs <;> simp [permWeight]
  have w2 : ∀ (p : Prop) [Decidable p], permWeight (if p then 119 else 45) = if p then 2 else 0 := by
    intro p _
    split_ifs <;> simp [permWeight]
  have w3 : ∀ (p : Prop) [Decidable p], permWeight (if p then 120 else 45) = if p then 1 else 0 := by
    intro p _
    split_ifs <;> simp [permWeight]
  have ite_mul : ∀ x k : Nat, (if x % 2 = 1 then k else 0) = k * (x % 2) := by
    intro x k
    rcases Nat.mod_two_eq_zero_or_one x with h | h <;> simp [h]
  simp only [e1, e2, e3, w1, w2, w3, not_true_eq_false, if_false, ite_mul]
  refine congrArg _ ?_
  exact octal_digits m hm

theorem parsePerms_ten_ok (c0 c1 c2 c3 c4 c5 c6 c7 c8 c9 : Byte) (m : Nat)
    (h : parsePerms [c0, c1, c2, c3, c4, c5, c6, c7, c8, c9] = .ok m) :
    (isPermChar c1 ∧ isPermChar c2 ∧ isPermChar c3 ∧ isPermChar c4 ∧ isPermChar c5 ∧
      isPermChar c6 ∧ isPermChar c7 ∧ isPermChar c8 ∧ isPermChar c9) ∧
    m = 64 * (permWeight c1 + permWeight c2 + permWeight c3)
        + 8 * (permWeight c4 + permWeight c5 + permWeight c6)
        + (permWeight c7 + permWeight c8 + permWeight c9) := by
  rw [parsePerms_ten] at h
  by_cases p1 : isPermChar c1
  case neg =>
    rw [if_pos p1] at h
    cases h
  rw [if_neg (not_not.mpr p1)] at h
  by_cases p2 : isPermChar c2
  case neg =>
    rw [if_pos p2] at h
    cases h
  rw [if_neg (not_not.mpr p2)] at h
  by_cases p3 : isPermChar c3
  case neg =>
    rw [if_pos p3] at h
    cases h
  rw [if_neg (not_not.mpr p3)] at h
  by_cases p4 : isPermChar c4
  case neg =>
    rw [if_pos p4] at h
    cases h
  rw [if_neg (not_not.mpr p4)] at h
  by_cases p5 : isPermChar c5
  case neg =>
    rw [if_pos p5] at h
    cases h
  rw [if_neg (not_not.mpr p5)] at h
  by_cases p6 : isPermChar c6
  case neg =>
    rw [if_pos p6] at h
    cases h
  rw [if_neg (not_not.mpr p6)] at h
  by_cases p7 : isPermChar c7
  case neg =>
    rw [if_pos p7] at h
    cases h
  rw [if_neg (not_not.mpr p7)] at h
  by_cases p8 : isPermChar c8
  case neg =>
    rw [if_pos p8] at h
    cases h
  rw [if_neg (not_not.mpr p8)] at h
  by_cases p9 : isPermChar c9
  case neg =>
    rw [if_pos p9] at h
    cases h
  rw [if_neg (not_not.mpr p9)] at h
  exact ⟨⟨p1, p2, p3, p4, p5, p6, p7, p8, p9⟩, (Outcome.ok.inj h).symm⟩

theorem parsePerms_head (c d : Byte) (t : Bytes) :
    parsePerms (c :: t) = parsePerms (d :: t) := by
  by_cases h : t.length = 9
  · obtain ⟨c0, c1, c2, c3, c4, c5, c6, c7, c8, c9, hs⟩ :=
      length_ten (c :: t) (by simp [h])
    obtain ⟨rfl, rfl⟩ := List.cons.inj hs
    rw [parsePerms_ten, parsePerms_ten]
  · rw [parsePerms_length _ (by simp [h]), parsePerms_length _ (by simp [h])]

theorem parsePerms_cases (s : Bytes) :
    (∃ m, parsePerms s = .ok m ∧ ¬ (s.length ≠ 10 ∨ hasBadPermChar s)) ∨
    (∃ e, parsePerms s = .error e ∧ (s.length ≠ 10 ∨ hasBadPermChar s)) := by
  by_cases h : s.length = 10
  · obtain ⟨c0, c1, c2, c3, c4, c5, c6, c7, c8, c9, rfl⟩ := length_ten s h
    rw [parsePerms_ten, hasBadPermChar_ten]
    by_cases p1 : isPermChar c1
    case neg => exact Or.inr ⟨_, by rw [if_pos p1], Or.inr (by tauto)⟩
    by_cases p2 : isPermChar c2
    case neg => exact Or.inr ⟨_, by rw [if_neg (not_not.mpr p1), if_pos p2], Or.inr (by tauto)⟩
    by_cases p3 : isPermChar c3
    case neg =>
      exact Or.inr ⟨_, by rw [if_neg (not_not.mpr p1), if_neg (not_not.mpr p2), if_pos p3],
        Or.inr (by tauto)⟩
    by_cases p4 : isPermChar c4
    case neg =>
      exact Or.inr ⟨_, by
        rw [if_neg (not_not.mpr p1), if_neg (not_not.mpr p2), if_neg (not_not.mpr p3),
          if_pos p4], Or.inr (by tauto)⟩
    by_cases p5 : isPermChar c5
    case neg =>
      exact Or.inr ⟨_, by
        rw [if_neg (not_not.mpr p1), if_neg (not_not.mpr p2), if_neg (not_not.mpr p3),
          if_neg (not_not.mpr p4), if_pos p5], Or.inr (by tauto)⟩
    by_cases p6 : isPermChar c6
    case neg =>
      exact Or.inr ⟨_, by
        rw [if_neg (not_not.mpr p1), if_neg (not_not.mpr p2), if_neg (not_not.mpr p3),
          if_neg (not_not.mpr p4), if_neg (not_not.mpr p5), if_pos p6], Or.inr (by tauto)⟩
    by_cases p7 : isPermChar c7
    case neg =>
      exact Or.inr ⟨_, by
        rw [if_neg (not_not.mpr p1), if_neg (not_not.mpr p2), if_neg (not_not.mpr p3),
          if_neg (not_not.mpr p4), if_neg (not_not.mpr p5), if_neg (not_not.mpr p6),
          if_pos p7], Or.inr (by tauto)⟩
    by_cases p8 : isPermChar c8
    case neg =>
      exact Or.inr ⟨_, by
        rw [if_neg (not_not.mpr p1), if_neg (not_not.mpr p2), if_neg (not_not.mpr p3),
          if_neg (not_not.mpr p4), if_neg (not_not.mpr p5), if_neg (not_not.mpr p6),
          if_neg (not_not.mpr p7), if_pos p8], Or.inr (by tauto)⟩
    by_cases p9 : isPermChar c9
    case neg =>
      exact Or.inr ⟨_, by
        rw [if_neg (not_not.mpr p1), if_neg (not_not.mpr p2), if_neg (not_not.mpr p3),
          if_neg (not_not.mpr p4), if_neg (not_not.mpr p5), if_neg (not_not.mpr p6),
          if_neg (not_not.mpr p7), if_neg (not_not.mpr p8), if_pos p9], Or.inr (by tauto)⟩
    refine Or.inl ⟨_, by
      rw [if_neg (not_not.mpr p1), if_neg (not_not.mpr p2), if_neg (not_not.mpr p3),
        if_neg (not_not.mpr p4), if_neg (not_not.mpr p5), if_neg (not_not.mpr p6),
        if_neg (not_not.mpr p7), if_neg (not_not.mpr p8), if_neg (not_not.mpr p9)], ?_⟩
    simp only [List.length_cons, List.length_nil]
    tauto
  · exact Or.inr ⟨_, parsePerms_length s h, Or.inl h⟩

theorem typeLoop_nil_of_clear (m : Nat) (cs : Bytes) (i : Nat)
    (h : ∀ j, i ≤ j → j < i + cs.length → m &&& (1 <<< (32 - 1 - j)) = 0) :
    FileMode.typeLoop m i cs = [] := by
  induction cs generalizing i with
  | nil => rfl
  | cons c cs ih =>
    rw [FileMode.typeLoop, if_neg (by simpa using h i (le_refl i) (by simp))]
    exact ih (i + 1) (fun j h1 h2 => h j (by omega) (by simp only [List.length_cons]; omega))

theorem typeLoop_nil_of_le (m : Nat) (hm : m ≤ 0o777) :
    FileMode.typeLoop m 0 FileMode.str = [] := by
  apply typeLoop_nil_of_clear
  intro j _ hj
  have hlen : FileMode.str.length = 13 := by decide
  rw [hlen] at hj
  by_contra hne
  rw [← ne_eq, and_shiftLeft_ne_zero] at hne
  have h1 : m < 2 ^ (32 - 1 - j) :=
    lt_of_lt_of_le (show m < 2 ^ 9 by omega) (Nat.pow_le_pow_right (by decide) (by omega))
  rw [Nat.div_eq_of_lt h1] at hne
  simp at hne

theorem parsePerms_ok_length (s : Bytes) (m : Nat) (h : parsePerms s = .ok m) :
    s.length = 10 := by
  by_contra hne
  rw [parsePerms_length s hne] at h
  cases h

theorem permWeight_canonical (a b c : Byte) (ha : a = 114 ∨ a = 45) (hb : b = 119 ∨ b = 45)
    (hc : c = 120 ∨ c = 45) : permWeight a + permWeight b + permWeight c ≤ 7 := by
  rcases ha with rfl | rfl <;> rcases hb with rfl | rfl <;> rcases hc with rfl | rfl <;> decide

/-! ## The permission codec (claims C2, C3, C9) -/

/-- C2: for every mode `m` with `m ≤ 0o777` and every leading byte `c`,
`parsePerms` of `c` followed by the nine characters `FileMode.String` renders
for the permission bits of `m` returns `m` with no error; for such a mode,
`FileMode.String m` is `-` followed by these nine characters. For example
`drwxrwxrwx` gives `0o777`, `l---------` gives 0 and `----rwx---` gives
`0o070`. -/
theorem parsePerms_inverse_of_rendering (m : Nat) (c : Byte) (hm : m ≤ 0o777) :
    FileMode.String m = 45 :: FileMode.rwxLoop m 0 FileMode.rwx ∧
    parsePerms (c :: FileMode.rwxLoop m 0 FileMode.rwx) = .ok m ∧
    parsePerms (ascii "drwxrwxrwx") = .ok 0o777 ∧
    parsePerms (ascii "l---------") = .ok 0 ∧
    parsePerms (ascii "----rwx---") = .ok 0o070 := by
  refine ⟨?_, rwx_inverse_aux m hm c, by decide, by decide, by decide⟩
  simp [FileMode.String, typeLoop_nil_of_le m hm]

theorem parsePerms_inverse_of_rendering_witness :
    0o070 ≤ 0o777 ∧
    (FileMode.String 0o070 = 45 :: FileMode.rwxLoop 0o070 0 FileMode.rwx ∧
      parsePerms (108 :: FileMode.rwxLoop 0o070 0 FileMode.rwx) = .ok 0o070 ∧
      parsePerms (ascii "drwxrwxrwx") = .ok 0o777 ∧
      parsePerms (ascii "l---------") = .ok 0 ∧
      parsePerms (ascii "----rwx---") = .ok 0o070) :=
  ⟨by decide, parsePerms_inverse_of_rendering 0o070 108 (by decide)⟩

/-- C3: `parsePerms` returns an error exactly when its input is not ten bytes
long or some byte at positions 1 to 9 is outside `r`, `w`, `x`, `-`, and
returns a value otherwise; the byte at position 0 plays no part. For example
`drwxrwxrwc` is rejected and `l---------` is accepted. -/
theorem parsePerms_error_iff (s : Bytes) :
    ((∃ e, parsePerms s = .error e) ↔ (s.length ≠ 10 ∨ hasBadPermChar s)) ∧
    ((∃ m, parsePerms s = .ok m) ↔ ¬ (s.length ≠ 10 ∨ hasBadPermChar s)) ∧
    (∀ c, parsePerms (c :: s.tail) = parsePerms (0 :: s.tail)) ∧
    parsePerms (ascii "drwxrwxrwc") = .error (.invalidChar 99) ∧
    parsePerms (ascii "l---------") = .ok 0 := by
  refine ⟨?_, ?_, fun c => parsePerms_head c 0 s.tail, by decide, by decide⟩
  · rcases parsePerms_cases s with ⟨m, hm, hc⟩ | ⟨e, he, hc⟩
    · constructor
      · rintro ⟨e, he⟩
        rw [hm] at he
        cases he
      · intro h
        exact absurd h hc
    · exact ⟨fun _ => hc, fun _ => ⟨e, he⟩⟩
  · rcases parsePerms_cases s with ⟨m, hm, hc⟩ | ⟨e, he, hc⟩
    · exact ⟨fun _ => hc, fun _ => ⟨m, hm⟩⟩
    · constructor
      · rintro ⟨m, hm⟩
        rw [he] at hm
        cases hm
      · intro h
        exact absurd hc h

/-- C9 (as amended): for every string `parsePerms` accepts, each group of
three bytes contributes the sum of the weights of its letters, at most 12, and
the value returned is `64*g1 + 8*g2 + g3`, at most 876; when every group has
the form `FileMode.String` renders (`r` or `-`, `w` or `-`, `x` or `-`) each
group contributes a single octal digit and the value is at most `0o777`. -/
theorem parsePerms_value_bound (s : Bytes) (m : Nat) (h : parsePerms s = .ok m) :
    m = 64 * permGroup s 1 + 8 * permGroup s 4 + permGroup s 7 ∧
    permGroup s 1 ≤ 12 ∧ permGroup s 4 ≤ 12 ∧ permGroup s 7 ≤ 12 ∧ m ≤ 876 ∧
    (isCanonicalGroup s 1 ∧ isCanonicalGroup s 4 ∧ isCanonicalGroup s 7 →
      permGroup s 1 ≤ 7 ∧ permGroup s 4 ≤ 7 ∧ permGroup s 7 ≤ 7 ∧ m ≤ 0o777) := by
  obtain ⟨c0, c1, c2, c3, c4, c5, c6, c7, c8, c9, rfl⟩ :=
    length_ten s (parsePerms_ok_length s m h)
  obtain ⟨_, hm⟩ := parsePerms_ten_ok _ _ _ _ _ _ _ _ _ _ m h
  have h1 := permWeight_le c1
  have h2 := permWeight_le c2
  have h3 := permWeight_le c3
  have h4 := permWeight_le c4
  have h5 := permWeight_le c5
  have h6 := permWeight_le c6
  have h7 := permWeight_le c7
  have h8 := permWeight_le c8
  have h9 := permWeight_le c9
  have g1 : permGroup [c0, c1, c2, c3, c4, c5, c6, c7, c8, c9] 1 =
      permWeight c1 + permWeight c2 + permWeight c3 := by simp [permGroup]
  have g4 : permGroup [c0, c1, c2, c3, c4, c5, c6, c7, c8, c9] 4 =
      permWeight c4 + permWeight c5 + permWeight c6 := by simp [permGroup]
  have g7 : permGroup [c0, c1, c2, c3, c4, c5, c6, c7, c8, c9] 7 =
      permWeight c7 + permWeight c8 + permWeight c9 := by simp [permGroup]
  rw [g1, g4, g7]
  refine ⟨hm, by omega, by omega, by omega, by omega, ?_⟩
  rintro ⟨⟨a1, a2, a3⟩, ⟨b1, b2, b3⟩, ⟨d1, d2, d3⟩⟩
  simp only [List.getD_cons_succ, List.getD_cons_zero, Nat.reduceAdd] at a1 a2 a3 b1 b2 b3 d1 d2 d3
  have k1 := permWeight_canonical c1 c2 c3 a1 a2 a3
  have k4 := permWeight_canonical c4 c5 c6 b1 b2 b3
  have k7 := permWeight_canonical c7 c8 c9 d1 d2 d3
  refine ⟨k1, k4, k7, ?_⟩
  omega

theorem parsePerms_value_bound_witness :
    parsePerms (ascii "-rwxr-xr-x") = .ok 0o755 ∧
    (0o755 = 64 * permGroup (ascii "-rwxr-xr-x") 1 + 8 * permGroup (ascii "-rwxr-xr-x") 4
        + permGroup (ascii "-rwxr-xr-x") 7 ∧
      permGroup (ascii "-rwxr-xr-x") 1 ≤ 12 ∧ permGroup (ascii "-rwxr-xr-x") 4 ≤ 12 ∧
      permGroup (ascii "-rwxr-xr-x") 7 ≤ 12 ∧ 0o755 ≤ 876 ∧
      (isCanonicalGroup (ascii "-rwxr-xr-x") 1 ∧ isCanonicalGroup (ascii "-rwxr-xr-x") 4 ∧
          isCanonicalGroup (ascii "-rwxr-xr-x") 7 →
        permGroup (ascii "-rwxr-xr-x") 1 ≤ 7 ∧ permGroup (ascii "-rwxr-xr-x") 4 ≤ 7 ∧
          permGroup (ascii "-rwxr-xr-x") 7 ≤ 7 ∧ 0o755 ≤ 0o777)) :=
  ⟨by decide, parsePerms_value_bound (ascii "-rwxr-xr-x") 0o755 (by decide)⟩

/-- C9 (as stated) fails: `parsePerms` accepts `-rrrrrrrrr`, in which every
group contributes 12, not an octal digit, and returns 876, above `0o777`. -/
theorem parsePerms_exceeds_mask :
    parsePerms (ascii "-rrrrrrrrr") = .ok 876 ∧ ¬ (876 ≤ 0o777) ∧
      permGroup (ascii "-rrrrrrrrr") 1 = 12 := by
  decide

/-! ## Lemmas on rendering -/

theorem typeLoop_length_le_one (m : Nat) (cs : Bytes) (i : Nat)
    (h : ∀ j k, i ≤ j → j < i + cs.length → i ≤ k → k < i + cs.length →
      m &&& (1 <<< (32 - 1 - j)) ≠ 0 → m &&& (1 <<< (32 - 1 - k)) ≠ 0 → j = k) :
    (FileMode.typeLoop m i cs).length ≤ 1 := by
  induction cs generalizing i with
  | nil => simp [FileMode.typeLoop]
  | cons c cs ih =>
    simp only [List.length_cons] at h
    by_cases hb : m &&& (1 <<< (32 - 1 - i)) ≠ 0
    · rw [FileMode.typeLoop, if_pos hb, typeLoop_nil_of_clear m cs (i + 1)]
      · simp
      · intro j h1 h2
        by_contra hne
        have := h i j (le_refl i) (by omega) (by omega) (by omega) hb hne
        omega
    · rw [FileMode.typeLoop, if_neg hb]
      exact ih (i + 1) (fun j k h1 h2 h3 h4 => h j k (by omega) (by omega) (by omega) (by omega))

theorem typeLoop_subset (m : Nat) (cs : Bytes) (i : Nat) :
    ∀ b ∈ FileMode.typeLoop m i cs, b ∈ cs := by
  induction cs generalizing i with
  | nil => simp [FileMode.typeLoop]
  | cons c cs ih =>
    intro b hb
    rw [FileMode.typeLoop] at hb
    split_ifs at hb
    · rcases List.mem_cons.mp hb with rfl | hb
      · exact List.mem_cons_self _ _
      · exact List.mem_cons_of_mem _ (ih (i + 1) b hb)
    · exact List.mem_cons_of_mem _ (ih (i + 1) b hb)

theorem rwxLoop_no_tab (m : Nat) : ∀ b ∈ FileMode.rwxLoop m 0 FileMode.rwx, isPermChar b := by
  rw [rwxLoop_eq]
  intro b hb
  simp only [List.mem_cons, List.mem_nil_iff, or_false] at hb
  rcases hb with h | h | h | h | h | h | h | h | h <;> rw [h] <;> split_ifs <;>
    simp [isPermChar]

theorem FileMode_String_mem (m : Nat) :
    ∀ b ∈ FileMode.String m, b ∈ FileMode.str ∨ isPermChar b := by
  intro b h
  simp only [FileMode.String, List.mem_append] at h
  rcases h with h | h
  · split_ifs at h
    · simp only [List.mem_singleton] at h
      exact Or.inr (by simp [h, isPermChar])
    · exact Or.inl (typeLoop_subset m _ _ _ h)
  · exact Or.inr (rwxLoop_no_tab m b h)

theorem FileMode_String_no_tab (m : Nat) : (9 : Byte) ∉ FileMode.String m := by
  intro h
  rcases FileMode_String_mem m 9 h with h | h <;> revert h <;> decide

theorem FileMode_String_no_newline (m : Nat) : (10 : Byte) ∉ FileMode.String m := by
  intro h
  rcases FileMode_String_mem m 10 h with h | h <;> revert h <;> decide

theorem takeWhile_ne_append (sep : Byte) (a b : Bytes) (h : sep ∉ a) :
    (a ++ sep :: b).takeWhile (fun x => x ≠ sep) = a := by
  induction a with
  | nil => simp
  | cons x a ih =>
    have hx : x ≠ sep := fun e => h (by simp [e])
    have ha : sep ∉ a := fun e => h (List.mem_cons_of_mem _ e)
    rw [List.cons_append, List.takeWhile_cons, if_pos (by simpa using hx), ih ha]

theorem rwxLoop_mod (m : Nat) :
    FileMode.rwxLoop m 0 FileMode.rwx = FileMode.rwxLoop (m % 512) 0 FileMode.rwx := by
  rw [rwxLoop_eq, rwxLoop_eq]
  have a8 : m % 512 / 256 % 2 = m / 256 % 2 := by omega
  have a7 : m % 512 / 128 % 2 = m / 128 % 2 := by omega
  have a6 : m % 512 / 64 % 2 = m / 64 % 2 := by omega
  have a5 : m % 512 / 32 % 2 = m / 32 % 2 := by omega
  have a4 : m % 512 / 16 % 2 = m / 16 % 2 := by omega
  have a3 : m % 512 / 8 % 2 = m / 8 % 2 := by omega
  have a2 : m % 512 / 4 % 2 = m / 4 % 2 := by omega
  have a1 : m % 512 / 2 % 2 = m / 2 % 2 := by omega
  have a0 : m % 512 % 2 = m % 2 := by omega
  rw [a8, a7, a6, a5, a4, a3, a2, a1, a0]

theorem FileMode_String_form (m : Nat) (h : hasOneTypeBitAtMost m) :
    ∃ t, FileMode.String m = t :: FileMode.rwxLoop m 0 FileMode.rwx := by
  have hlen : FileMode.str.length = 13 := by decide
  have hle : (FileMode.typeLoop m 0 FileMode.str).length ≤ 1 := by
    apply typeLoop_length_le_one
    intro j k _ hj _ hk bj bk
    rw [hlen] at hj hk
    exact h j k (by omega) (by omega) bj bk
  simp only [FileMode.String]
  split_ifs with h0
  · exact ⟨45, rfl⟩
  · match hl : FileMode.typeLoop m 0 FileMode.str, hle, h0 with
    | [t], _, _ => exact ⟨t, rfl⟩
    | [], _, h0 => simp at h0
    | _ :: _ :: _, hle, _ => simp at hle

theorem parsePerms_FileMode_String (m : Nat) (h : hasOneTypeBitAtMost m) :
    parsePerms (FileMode.String m) = .ok (m % 512) := by
  obtain ⟨t, ht⟩ := FileMode_String_form m h
  rw [ht, rwxLoop_mod]
  exact rwx_inverse_aux _ (by omega) t

theorem hasOneTypeBitAtMost_of_le (m : Nat) (hm : m ≤ 0o777) : hasOneTypeBitAtMost m := by
  intro i j hi _ hbi _
  exfalso
  rw [and_shiftLeft_ne_zero] at hbi
  have h1 : m < 2 ^ (32 - 1 - i) :=
    lt_of_lt_of_le (show m < 2 ^ 9 by omega) (Nat.pow_le_pow_right (by decide) (by omega))
  rw [Nat.div_eq_of_lt h1] at hbi
  simp at hbi

theorem Entry_String_eq (e : Entry) :
    e.String = FileMode.String e.Perms ++ 9 :: (e.Uid ++ 47 :: (e.Gid ++ 9 :: e.Path)) := by
  simp [Entry.String, Sprintf, ascii]

/-! ## Rendering of an entry (claims C8, C10) -/

/-- C8: for every entry, `String()` is exactly the rendering of `Perms` by
`FileMode.String`, a tab, `Uid`, `/`, `Gid`, a tab and `Path`; nothing follows
the path, so the last byte is that of the tab followed by `Path`. -/
theorem Entry_String_format (e : Entry) :
    e.String = FileMode.String e.Perms ++ [9] ++ e.Uid ++ [47] ++ e.Gid ++ [9] ++ e.Path ∧
    e.String.getLast? = (9 :: e.Path).getLast? := by
  constructor
  · simp [Entry.String, Sprintf, ascii]
  · rw [Entry_String_eq]
    rw [List.getLast?_append, List.getLast?_cons, List.getLast?_append, List.getLast?_cons]
    rw [List.getLast?_append]
    simp only [List.getLast?_cons]
    cases e.Path.getLast? <;> simp

/-- C10 (as amended): for every entry whose `Perms` has at most one of the
thirteen mode bits `dalTLDpSugct?` set (every mode up to `0o777`, which is all
`MakeEntry` produces, is one), the text of `String()` before the first tab is
the rendering of `Perms`, of exactly ten bytes, the bytes at positions 1 to 9
being among `r`, `w`, `x`, `-`, and `parsePerms` accepts it and returns the
nine permission bits of `Perms`. -/
theorem Entry_String_perm_field (e : Entry) (h : hasOneTypeBitAtMost e.Perms) :
    e.String.takeWhile (fun b => b ≠ 9) = FileMode.String e.Perms ∧
    (FileMode.String e.Perms).length = 10 ∧
    (∀ i, 1 ≤ i → i ≤ 9 → ∃ c, (FileMode.String e.Perms)[i]? = some c ∧ isPermChar c) ∧
    parsePerms (FileMode.String e.Perms) = .ok (e.Perms % 512) := by
  have hp := parsePerms_FileMode_String e.Perms h
  have hlen : (FileMode.String e.Perms).length = 10 := parsePerms_ok_length _ _ hp
  refine ⟨?_, hlen, ?_, hp⟩
  · rw [Entry_String_eq]
    exact takeWhile_ne_append 9 _ _ (FileMode_String_no_tab e.Perms)
  · intro i h1 h9
    have hi : i < (FileMode.String e.Perms).length := by omega
    refine ⟨(FileMode.String e.Perms)[i], List.getElem?_eq_getElem hi, ?_⟩
    by_contra hbad
    have hb : hasBadPermChar (FileMode.String e.Perms) :=
      ⟨i, h1, h9, _, List.getElem?_eq_getElem hi, hbad⟩
    rcases parsePerms_cases (FileMode.String e.Perms) with ⟨_, _, hc⟩ | ⟨err, he, _⟩
    · exact hc (Or.inr hb)
    · rw [hp] at he
      cases he

theorem Entry_String_perm_field_witness :
    hasOneTypeBitAtMost (Entry.mk 0o755 (ascii "/a") (ascii "u") (ascii "g")).Perms ∧
    ((Entry.mk 0o755 (ascii "/a") (ascii "u") (ascii "g")).String.takeWhile (fun b => b ≠ 9)
        = FileMode.String (Entry.mk 0o755 (ascii "/a") (ascii "u") (ascii "g")).Perms ∧
      (FileMode.String (Entry.mk 0o755 (ascii "/a") (ascii "u") (ascii "g")).Perms).length = 10 ∧
      (∀ i, 1 ≤ i → i ≤ 9 → ∃ c,
        (FileMode.String (Entry.mk 0o755 (ascii "/a") (ascii "u") (ascii "g")).Perms)[i]?
          = some c ∧ isPermChar c) ∧
      parsePerms (FileMode.String (Entry.mk 0o755 (ascii "/a") (ascii "u") (ascii "g")).Perms)
        = .ok ((Entry.mk 0o755 (ascii "/a") (ascii "u") (ascii "g")).Perms % 512)) :=
  ⟨hasOneTypeBitAtMost_of_le _ (by decide),
    Entry_String_perm_field _ (hasOneTypeBitAtMost_of_le _ (by decide))⟩

/-- C10 (as stated) fails: for an entry whose `Perms` is a setgid directory
(`ModeDir|ModeSetgid|0o755`) the text of `String()` before the first tab is
`dgrwxr-xr-x`, of eleven bytes, and `parsePerms` rejects it. -/
theorem Entry_String_perm_field_eleven :
    (Entry.mk (2 ^ 31 + 2 ^ 22 + 0o755) (ascii "/a") (ascii "u")
        (ascii "g")).String.takeWhile (fun b => b ≠ 9) = ascii "dgrwxr-xr-x" ∧
    (ascii "dgrwxr-xr-x").length = 11 ∧
    parsePerms (ascii "dgrwxr-xr-x") = .error .invalidLen := by
  decide

/-! ## The ledger (claims C6, C7) -/

theorem writeLoop_bytesBuffer (st : Bytes) (es : EntrySeq) :
    footprint.writeLoop bytesBuffer st es =
      (st ++ (es.map (fun e => e.String ++ [10])).flatten, none) := by
  induction es generalizing st with
  | nil => simp [footprint.writeLoop]
  | cons e es ih =>
    simp only [footprint.writeLoop, bytesBuffer, List.map_cons, List.flatten_cons]
    rw [← bytesBuffer, ih]
    simp

/-- C6: `List.String` returns the concatenation, in the order of the
entries, of every entry's `String()` followed by one newline; the `write` into
the buffer returns no error for any ledger, so the result is never an error
message. -/
theorem List_String_concat (l : footprint.List) :
    l.String = (l.entries.map (fun e => e.String ++ [10])).flatten ∧
    (l.write bytesBuffer []).2 = none := by
  constructor
  · unfold footprint.List.String footprint.List.write footprint.List.Len
    rw [writeLoop_bytesBuffer]
    split_ifs with h
    · rw [List.length_eq_zero.mp h]
      rfl
    · simp
  · unfold footprint.List.write
    rw [writeLoop_bytesBuffer]

/-- C7: `Add` appends: after `l.Add e` the entries are the previous entries
followed by `e`, `Len` is one more, and every earlier entry is at its place. -/
theorem List_Add_appends (l : footprint.List) (e : Entry) :
    (l.Add e).entries = l.entries ++ [e] ∧
    (l.Add e).Len = l.Len + 1 ∧
    (∀ i, i < l.Len → (l.Add e).entries[i]? = l.entries[i]?) ∧
    (l.Add e).entries[l.Len]? = some e := by
  refine ⟨rfl, by simp [footprint.List.Add, footprint.List.Len], ?_, ?_⟩
  · intro i hi
    simp only [footprint.List.Add, footprint.List.Len] at hi ⊢
    rw [List.getElem?_append_left hi]
  · simp [footprint.List.Add, footprint.List.Len]

/-! ## Lemmas on reading lines -/

theorem IndexByte_append (a b : Bytes) (c : Byte) (h : c ∉ a) :
    IndexByte (a ++ c :: b) c = some a.length := by
  induction a with
  | nil => simp [IndexByte]
  | cons x a ih =>
    have hx : x ≠ c := fun e => h (by simp [e])
    have ha : c ∉ a := fun e => h (List.mem_cons_of_mem _ e)
    simp [IndexByte, hx, ih ha]

theorem IndexByte_none (a : Bytes) (c : Byte) (h : c ∉ a) : IndexByte a c = none := by
  induction a with
  | nil => rfl
  | cons x a ih =>
    have hx : x ≠ c := fun e => h (by simp [e])
    have ha : c ∉ a := fun e => h (List.mem_cons_of_mem _ e)
    simp [IndexByte, hx, ih ha]

theorem ReadSlice_found (size : Nat) (seg rest : Bytes) (d : Byte) (h : d ∉ seg)
    (hlen : seg.length < size) :
    ReadSlice size (seg ++ d :: rest) d = (seg ++ [d], rest, none) := by
  have htake : (seg ++ d :: rest).take size = seg ++ d :: rest.take (size - seg.length - 1) := by
    rw [List.take_append_eq_append_take, List.take_of_length_le (le_of_lt hlen)]
    obtain ⟨k, hk⟩ : ∃ k, size - seg.length = k + 1 := ⟨size - seg.length - 1, by omega⟩
    rw [hk, List.take_succ_cons]
    simp
  unfold ReadSlice
  rw [htake, IndexByte_append _ _ _ h]
  simp only
  have h1 : (seg ++ d :: rest).take (seg.length + 1) = seg ++ [d] := by
    rw [List.take_append_eq_append_take, List.take_of_length_le (by omega)]
    simp
  have h2 : (seg ++ d :: rest).drop (seg.length + 1) = rest := by
    rw [List.drop_append_eq_append_drop, List.drop_of_length_le (by omega)]
    simp
  rw [h1, h2]

theorem ReadSlice_end (size : Nat) (rest : Bytes) (d : Byte) (h : d ∉ rest)
    (hlen : rest.length < size) :
    ReadSlice size rest d = (rest, [], some .EOF) := by
  unfold ReadSlice
  rw [IndexByte_none _ _ (fun hm => h (List.mem_of_mem_take hm))]
  simp [hlen]

theorem ReadSlice_full (size : Nat) (w rest : Bytes) (d : Byte) (h : d ∉ w)
    (hlen : w.length = size) :
    ReadSlice size (w ++ rest) d = (w, rest, some .ErrBufferFull) := by
  have htake : (w ++ rest).take size = w := by
    rw [← hlen, List.take_left]
  have hdrop : (w ++ rest).drop size = rest := by
    rw [← hlen, List.drop_left]
  unfold ReadSlice
  rw [htake, hdrop, IndexByte_none _ _ h]
  simp [hlen]

theorem ReadLine_nil : ReadLine [] = ([], false, some .EOF, []) := by
  decide

theorem ReadLine_terminated (seg rest : Bytes) (h : 10 ∉ seg)
    (hlen : seg.length < defaultBufSize) :
    ReadLine (seg ++ 10 :: rest) = (chomp seg, false, none, rest) := by
  unfold ReadLine
  rw [ReadSlice_found _ _ _ _ h hlen]
  rcases List.eq_nil_or_concat seg with rfl | ⟨init, x, rfl⟩
  · simp [chomp]
  · rw [List.concat_eq_append]
    have hlen2 : (init ++ [x] ++ [10]).length = init.length + 2 := by simp
    have hget : (init ++ [x] ++ [10]).get? (init.length + 2 - 2) = some x := by
      rw [List.get?_eq_getElem?, List.append_assoc, List.getElem?_append_right (by omega)]
      simp
    have hlast : (init ++ [x] ++ [10]).getLast? = some 10 := by simp
    have hchomp : (init ++ [x]).getLast? = some x := by simp
    simp only [reduceCtorEq, if_false, hlen2, hget, hlast, if_true, chomp, hchomp,
      Option.some.injEq]
    by_cases hx : x = 13
    · subst hx
      have e1 : init.length + 2 ≠ 0 := by omega
      have e2 : 1 < init.length + 2 := by omega
      simp only [e1, e2, if_false, true_and, if_true, Nat.add_sub_cancel, List.dropLast_concat]
      rw [List.append_assoc, List.take_left]
    · have e1 : init.length + 2 ≠ 0 := by omega
      simp only [e1, hx, and_false, if_false]
      rw [show init.length + 2 - 1 = (init ++ [x]).length by simp, List.take_left]

theorem ReadLine_last (last : Bytes) (h : 10 ∉ last) (hpos : last ≠ [])
    (hlen : last.length < defaultBufSize) :
    ReadLine last = (last, false, none, []) := by
  unfold ReadLine
  rw [ReadSlice_end _ _ _ h hlen]
  have h0 : last.length ≠ 0 := fun e => hpos (List.length_eq_zero.mp e)
  have hl : last.getLast? ≠ some 10 := by
    intro e
    exact h (List.mem_of_getLast?_eq_some e)
  simp [h0, hl]

theorem ReadLine_full (w rest : Bytes) (h : 10 ∉ w) (hlen : w.length = defaultBufSize)
    (hcr : w.getLast? ≠ some 13) :
    ReadLine (w ++ rest) = (w, true, none, rest) := by
  unfold ReadLine
  rw [ReadSlice_full _ _ _ _ h hlen]
  simp [hcr]

/-! ## Lemmas on splitting and on the loop of Parse -/

theorem Split_no_sep (sep : Byte) (a : Bytes) (h : sep ∉ a) : Split sep a = [a] := by
  induction a with
  | nil => rfl
  | cons x a ih =>
    have hx : x ≠ sep := fun e => h (by simp [e])
    have ha : sep ∉ a := fun e => h (List.mem_cons_of_mem _ e)
    simp [Split, hx, ih ha, Split.push]

theorem Split_append (sep : Byte) (a b : Bytes) (h : sep ∉ a) :
    Split sep (a ++ sep :: b) = a :: Split sep b := by
  induction a with
  | nil => simp [Split]
  | cons x a ih =>
    have hx : x ≠ sep := fun e => h (by simp [e])
    have ha : sep ∉ a := fun e => h (List.mem_cons_of_mem _ e)
    simp [Split, hx, ih ha, Split.push]

theorem Split_ne_nil (sep : Byte) (a : Bytes) : ∃ p ps, Split sep a = p :: ps := by
  induction a with
  | nil => exact ⟨[], [], rfl⟩
  | cons x a ih =>
    obtain ⟨p, ps, h⟩ := ih
    by_cases hx : x = sep
    · exact ⟨[], Split sep a, by simp [Split, hx]⟩
    · exact ⟨x :: p, ps, by simp [Split, hx, h, Split.push]⟩

theorem Split_of_mem (sep : Byte) (a : Bytes) (h : sep ∈ a) :
    ∃ p q qs, Split sep a = p :: q :: qs := by
  induction a with
  | nil => simp at h
  | cons x a ih =>
    by_cases hx : x = sep
    · obtain ⟨p, ps, hp⟩ := Split_ne_nil sep a
      exact ⟨[], p, ps, by simp [Split, hx, hp]⟩
    · have ha : sep ∈ a := by
        rcases List.mem_cons.mp h with e | e
        · exact absurd e.symm hx
        · exact e
      obtain ⟨p, q, qs, hp⟩ := ih ha
      exact ⟨x :: p, q, qs, by simp [Split, hx, hp, Split.push]⟩

theorem Parse_line_of_entry (l : Bytes) (e : Entry) (h : isEntryOfLine l e) :
    Parse.line l = .ok e := by
  obtain ⟨p0, p1, p2, h3, hp, ho, hpath⟩ := h
  simp [Parse.line, h3, hp, ho, ← hpath]

theorem Parse_line_cases (l : Bytes) :
    (isMalformedLine l ∧ ∃ err, Parse.line l = .error err) ∨
    (¬ isMalformedLine l ∧ lacksSlash l ∧ Parse.line l = .panic) ∨
    (¬ isMalformedLine l ∧ ¬ lacksSlash l ∧ ∃ e, Parse.line l = .ok e) := by
  by_cases h3 : (Split 9 l).length = 3
  · obtain ⟨p0, p1, p2, hs⟩ : ∃ p0 p1 p2, Split 9 l = [p0, p1, p2] := by
      match hl : Split 9 l, h3 with
      | [p0, p1, p2], _ => exact ⟨p0, p1, p2, rfl⟩
    rcases parsePerms_cases p0 with ⟨m, hm, _⟩ | ⟨err, he, _⟩
    · have hnm : ¬ isMalformedLine l := by
        rintro (hlen | ⟨err, he⟩)
        · exact hlen h3
        · rw [hs] at he
          simp only [List.getD_cons_zero] at he
          rw [hm] at he
          cases he
      by_cases hsl : (47 : Byte) ∈ p1
      · obtain ⟨u, g, rest, ho⟩ := Split_of_mem 47 p1 hsl
        refine Or.inr (Or.inr ⟨hnm, ?_, ?_⟩)
        · simp [lacksSlash, hs, hsl]
        · exact ⟨⟨m, p2, u, g⟩, by simp [Parse.line, hs, hm, ho]⟩
      · refine Or.inr (Or.inl ⟨hnm, ?_, ?_⟩)
        · simp [lacksSlash, hs, hsl]
        · simp [Parse.line, hs, hm, Split_no_sep 47 p1 hsl]
    · refine Or.inl ⟨Or.inr ⟨err, ?_⟩, ?_⟩
      · rw [hs]
        exact he
      · exact ⟨.permissionBits err, by simp [Parse.line, hs, he]⟩
  · refine Or.inl ⟨Or.inl h3, .improperlySeparated l, ?_⟩
    unfold Parse.line
    split
    · rename_i p0 p1 p2 hs
      rw [hs] at h3
      simp at h3
    · rfl

theorem textOf_cons (seg : Bytes) (segs : List Bytes) (last : Bytes) :
    textOf (seg :: segs) last = seg ++ 10 :: textOf segs last := by
  simp [textOf]

theorem Parse_loop_eq_lines (segs : List Bytes) (last : Bytes) (hs : shortLines segs last)
    (fuel : Nat) (acc : EntrySeq) (hf : (textOf segs last).length < fuel) :
    Parse.loop fuel (textOf segs last) acc = Parse.lines (linesOf segs last) acc := by
  induction segs generalizing fuel acc with
  | nil =>
    obtain ⟨_, hl1, hl2⟩ := hs
    have ht : textOf [] last = last := by simp [textOf]
    rw [ht] at hf ⊢
    by_cases hlast : last = []
    · subst hlast
      obtain ⟨f, rfl⟩ : ∃ f, fuel = f + 1 := ⟨fuel - 1, by omega⟩
      simp [Parse.loop, ReadLine_nil, linesOf, Parse.lines]
    · have hpos : 0 < last.length := List.length_pos.mpr hlast
      obtain ⟨f, rfl⟩ : ∃ f, fuel = f + 1 + 1 := ⟨fuel - 2, by omega⟩
      simp only [linesOf, List.map_nil, List.nil_append, hlast, if_false, Parse.lines]
      rw [Parse.loop, ReadLine_last last hl1 hlast hl2]
      simp only
      cases Parse.line last with
      | ok e => simp [Parse.loop, ReadLine_nil]
      | error err => rfl
      | panic => rfl
      | outOfFuel => rfl
  | cons seg segs ih =>
    obtain ⟨hsegs, hl1, hl2⟩ := hs
    have hseg := hsegs seg (List.mem_cons_self _ _)
    have hs2 : shortLines segs last :=
      ⟨fun s h => hsegs s (List.mem_cons_of_mem _ h), hl1, hl2⟩
    rw [textOf_cons] at hf ⊢
    obtain ⟨f, rfl⟩ : ∃ f, fuel = f + 1 := ⟨fuel - 1, by omega⟩
    have hf2 : (textOf segs last).length < f := by
      simp only [List.length_append, List.length_cons] at hf
      omega
    rw [Parse.loop, ReadLine_terminated seg _ hseg.1 hseg.2]
    simp only [linesOf, List.map_cons, List.cons_append, Parse.lines]
    cases Parse.line (chomp seg) with
    | ok e => exact ih hs2 f _ hf2
    | error err => rfl
    | panic => rfl
    | outOfFuel => rfl

theorem Parse_eq_lines (segs : List Bytes) (last : Bytes) (hs : shortLines segs last) :
    Parse (textOf segs last) = Parse.lines (linesOf segs last) [] :=
  Parse_loop_eq_lines segs last hs _ [] (Nat.lt_succ_self _)

/-! ## Termination of the loop of Parse -/

theorem IndexByte_lt (a : Bytes) (c : Byte) (i : Nat) (h : IndexByte a c = some i) :
    i < a.length := by
  induction a generalizing i with
  | nil => simp [IndexByte] at h
  | cons x a ih =>
    rw [IndexByte] at h
    split_ifs at h
    · cases h
      simp
    · cases hi : IndexByte a c with
      | none => simp [hi] at h
      | some k =>
        rw [hi] at h
        cases h
        have := ih k hi
        simp only [List.length_cons]
        omega

theorem ReadLine_shorter (rest : Bytes) (h : (ReadLine rest).2.2.1 = none) :
    (ReadLine rest).2.2.2.length < rest.length := by
  unfold ReadLine ReadSlice at h ⊢
  cases hi : IndexByte (rest.take defaultBufSize) 10 with
  | some i =>
    have hlt := IndexByte_lt _ _ _ hi
    rw [List.length_take] at hlt
    have hlen : (rest.take (i + 1)).length = i + 1 := by
      rw [List.length_take]
      omega
    simp only [reduceCtorEq, if_false, hlen, Nat.add_one_ne_zero]
    split_ifs <;> simp only [List.length_drop] <;> omega
  | none =>
    rw [hi] at h
    by_cases hsz : rest.length < defaultBufSize
    · simp only [hsz, if_true, Option.some.injEq, reduceCtorEq, if_false] at h ⊢
      by_cases h0 : rest.length = 0
      · simp [h0] at h
      · split_ifs <;> simp only [List.length_nil] <;> omega
    · have hsz2 : defaultBufSize ≤ rest.length := by omega
      rw [defaultBufSize] at hsz2
      simp only [hsz, if_false, if_true]
      split_ifs <;> simp only [List.length_cons, List.length_drop, defaultBufSize] <;> omega

theorem Parse_line_ne_outOfFuel (l : Bytes) : Parse.line l ≠ .outOfFuel := by
  intro h
  rcases Parse_line_cases l with ⟨_, err, he⟩ | ⟨_, _, hp⟩ | ⟨_, _, e, he⟩
  · rw [he] at h
    cases h
  · rw [hp] at h
    cases h
  · rw [he] at h
    cases h

theorem Parse_loop_ne_outOfFuel (fuel : Nat) (rest : Bytes) (acc : EntrySeq)
    (hf : rest.length < fuel) : Parse.loop fuel rest acc ≠ .outOfFuel := by
  induction fuel generalizing rest acc with
  | zero => omega
  | succ f ih =>
    have hshort := ReadLine_shorter rest
    rw [Parse.loop]
    rcases hr : ReadLine rest with ⟨line, more, err, rest1⟩
    rw [hr] at hshort
    cases err with
    | some e =>
      simp only
      split_ifs <;> simp
    | none =>
      simp only
      have hl : rest1.length < f := by
        have := hshort rfl
        simp only at this
        omega
      cases hp : Parse.line line with
      | ok e => exact ih rest1 _ hl
      | error err => simp
      | panic => simp
      | outOfFuel => exact absurd hp (Parse_line_ne_outOfFuel line)

theorem Parse_ne_outOfFuel (input : Bytes) : Parse input ≠ .outOfFuel :=
  Parse_loop_ne_outOfFuel _ input [] (Nat.lt_succ_self _)

theorem Parse_lines_ok (ls : List Bytes) (h : ∀ l ∈ ls, ∃ e, isEntryOfLine l e)
    (acc : EntrySeq) :
    ∃ es, Parse.lines ls acc = .ok { entries := acc ++ es } ∧
      List.Forall₂ isEntryOfLine ls es := by
  induction ls generalizing acc with
  | nil => exact ⟨[], by simp [Parse.lines], List.Forall₂.nil⟩
  | cons l ls ih =>
    obtain ⟨e, he⟩ := h l (List.mem_cons_self _ _)
    obtain ⟨es, hes, hall⟩ := ih (fun l' hl' => h l' (List.mem_cons_of_mem _ hl')) (acc ++ [e])
    refine ⟨e :: es, ?_, List.Forall₂.cons he hall⟩
    rw [Parse.lines, Parse_line_of_entry l e he]
    simpa using hes

theorem Parse_lines_malformed (pre post : List Bytes) (bad : Bytes)
    (hbad : isMalformedLine bad) (acc : EntrySeq) :
    (Parse.lines (pre ++ bad :: post) acc = .panic ∨
      ∃ err, Parse.lines (pre ++ bad :: post) acc = .error err) ∧
    ((∀ l ∈ pre, lacksSlash l → isMalformedLine l) →
      ∃ err, Parse.lines (pre ++ bad :: post) acc = .error err) := by
  induction pre generalizing acc with
  | nil =>
    rcases Parse_line_cases bad with ⟨_, err, he⟩ | ⟨hn, _⟩ | ⟨hn, _⟩
    · have : Parse.lines ([] ++ bad :: post) acc = .error err := by
        simp [Parse.lines, he]
      exact ⟨Or.inr ⟨err, this⟩, fun _ => ⟨err, this⟩⟩
    · exact absurd hbad hn
    · exact absurd hbad hn
  | cons l pre ih =>
    rcases Parse_line_cases l with ⟨_, err, he⟩ | ⟨hn, hsl, hp⟩ | ⟨_, _, e, he⟩
    · have : Parse.lines (l :: pre ++ bad :: post) acc = .error err := by
        simp [Parse.lines, he]
      exact ⟨Or.inr ⟨err, this⟩, fun _ => ⟨err, this⟩⟩
    · have : Parse.lines (l :: pre ++ bad :: post) acc = .panic := by
        simp [Parse.lines, hp]
      exact ⟨Or.inl this, fun hall => absurd (hall l (List.mem_cons_self _ _) hsl) hn⟩
    · have : Parse.lines (l :: pre ++ bad :: post) acc
          = Parse.lines (pre ++ bad :: post) (acc ++ [e]) := by
        simp [Parse.lines, he]
      rw [this]
      obtain ⟨h1, h2⟩ := ih (acc ++ [e])
      exact ⟨h1, fun hall => h2 (fun l' hl' => hall l' (List.mem_cons_of_mem _ hl'))⟩

theorem Entry_String_no_newline (e : Entry) (h : isWellFormedEntry e) :
    (10 : Byte) ∉ e.String := by
  obtain ⟨_, ⟨_, hu, _⟩, ⟨_, hg, _⟩, _, hp⟩ := h
  rw [Entry_String_eq]
  have := FileMode_String_no_newline e.Perms
  simp [this, hu, hg, hp]

theorem Entry_String_chomp (e : Entry) (h : e.Path.getLast? ≠ some 13) :
    chomp e.String = e.String := by
  have hl : e.String.getLast? = (9 :: e.Path).getLast? := by
    rw [Entry_String_eq, List.getLast?_append, List.getLast?_cons, List.getLast?_append,
      List.getLast?_cons, List.getLast?_append]
    simp only [List.getLast?_cons]
    cases e.Path.getLast? <;> simp
  have hne : e.String.getLast? ≠ some 13 := by
    rw [hl, List.getLast?_cons]
    cases hp : e.Path.getLast? with
    | none => simp
    | some x =>
      rw [hp] at h
      simpa using h
  simp [chomp, hne]

theorem isEntryOfLine_String (e : Entry) (h : isWellFormedEntry e) :
    isEntryOfLine e.String e := by
  obtain ⟨hm, ⟨hu9, _, hu47⟩, ⟨hg9, _, hg47⟩, hp9, _⟩ := h
  refine ⟨FileMode.String e.Perms, e.Uid ++ 47 :: e.Gid, e.Path, ?_, ?_, ?_, rfl⟩
  · rw [Entry_String_eq, Split_append 9 _ _ (FileMode_String_no_tab e.Perms)]
    have e1 : e.Uid ++ 47 :: (e.Gid ++ 9 :: e.Path) = (e.Uid ++ 47 :: e.Gid) ++ 9 :: e.Path := by
      simp
    rw [e1, Split_append 9 _ _ (by simp [hu9, hg9]), Split_no_sep 9 _ hp9]
  · rw [parsePerms_FileMode_String _ (hasOneTypeBitAtMost_of_le _ hm)]
    congr 1
    omega
  · rw [Split_append 47 _ _ hu47, Split_no_sep 47 _ hg47]

theorem List_String_textOf (l : footprint.List) :
    l.String = textOf (l.entries.map Entry.String) [] := by
  unfold footprint.List.String footprint.List.write footprint.List.Len
  rw [writeLoop_bytesBuffer]
  split_ifs with h
  · rw [List.length_eq_zero.mp h]
    rfl
  · simp [textOf, List.map_map, Function.comp_def]

theorem Parse_lines_String (es acc : EntrySeq) (h : ∀ e ∈ es, isWellFormedEntry e) :
    Parse.lines (es.map Entry.String) acc = .ok { entries := acc ++ es } := by
  induction es generalizing acc with
  | nil => simp [Parse.lines]
  | cons e es ih =>
    rw [List.map_cons, Parse.lines,
      Parse_line_of_entry _ e (isEntryOfLine_String e (h e (List.mem_cons_self _ _)))]
    simp only
    rw [ih (acc ++ [e]) (fun e' he' => h e' (List.mem_cons_of_mem _ he'))]
    simp

/-! ## Parsing (claims C4, C5) and the round trip (claim C1) -/

/-- C1 (as amended): for every ledger whose entries are well-formed, whose
paths do not end with a carriage return and whose rendered lines are shorter
than 4096 bytes, `Parse` of `String()` succeeds and returns the same ledger:
the same entries in the same order, each with identical `Perms`, `Uid`, `Gid`
and `Path`. -/
theorem Parse_String_roundtrip (l : footprint.List)
    (h : ∀ e ∈ l.entries, isWellFormedEntry e ∧ e.Path.getLast? ≠ some 13 ∧
      e.String.length < defaultBufSize) :
    Parse l.String = .ok l := by
  have hs : shortLines (l.entries.map Entry.String) [] := by
    refine ⟨?_, by simp, by simp [defaultBufSize]⟩
    intro s hs
    obtain ⟨e, he, rfl⟩ := List.mem_map.mp hs
    exact ⟨Entry_String_no_newline e (h e he).1, (h e he).2.2⟩
  have hl : linesOf (l.entries.map Entry.String) [] = l.entries.map Entry.String := by
    simp only [linesOf, if_true, List.append_nil, List.map_map]
    apply List.map_congr_left
    intro e he
    exact Entry_String_chomp e (h e he).2.1
  rw [List_String_textOf, Parse_eq_lines _ _ hs, hl,
    Parse_lines_String _ _ (fun e he => (h e he).1)]
  simp

/-- C4 (as amended): for every input in which every newline-terminated piece
(the bytes between two newlines, a carriage return before the newline
included) and what follows the last newline are shorter than 4096 bytes, and
in which each line (a piece without the carriage return before its newline, if
there is one, or what follows the last newline) has exactly three tab-separated
fields, a valid permission field and an owner/group field of exactly two
`/`-separated parts, `Parse` succeeds and returns one entry per line in file
order, with `Perms = parsePerms(field 0)`, `Uid` and `Gid` the two parts of
field 1 and `Path` field 2 of the line. -/
theorem Parse_of_wellformed_lines (segs : List Bytes) (last : Bytes)
    (hs : shortLines segs last) (hg : ∀ l ∈ linesOf segs last, ∃ e, isEntryOfLine l e) :
    ∃ es, Parse (textOf segs last) = .ok { entries := es } ∧
      List.Forall₂ isEntryOfLine (linesOf segs last) es := by
  rw [Parse_eq_lines segs last hs]
  obtain ⟨es, h1, h2⟩ := Parse_lines_ok _ hg []
  exact ⟨es, by simpa using h1, h2⟩

/-- C5 (as amended): for every input whose lines are shorter than 4096 bytes,
if some line does not split into exactly three tab-separated fields or has a
permission field that `parsePerms` rejects, `Parse` returns no ledger: it
panics or returns an error, and it returns an error when no earlier line with
three fields and a valid permission field lacks the `/` of its owner/group
field. -/
theorem Parse_all_or_nothing (segs : List Bytes) (last : Bytes) (pre post : List Bytes)
    (bad : Bytes) (hs : shortLines segs last) (hl : linesOf segs last = pre ++ bad :: post)
    (hbad : isMalformedLine bad) :
    (Parse (textOf segs last) = .panic ∨ ∃ err, Parse (textOf segs last) = .error err) ∧
    ((∀ l ∈ pre, lacksSlash l → isMalformedLine l) →
      ∃ err, Parse (textOf segs last) = .error err) := by
  rw [Parse_eq_lines segs last hs, hl]
  exact Parse_lines_malformed pre post bad hbad []

/-! ## Lines longer than the buffer -/

theorem fullChunk_eq :
    fullChunk = ascii "----------" ++ 9 :: (ascii "u/g" ++ 9 :: List.replicate 4081 97) := by
  have h : ∀ r : Bytes, ascii "----------\tu/g\t" ++ r
      = ascii "----------" ++ 9 :: (ascii "u/g" ++ 9 :: r) := by
    intro r
    have h0 : ascii "----------\tu/g\t" = ascii "----------" ++ 9 :: (ascii "u/g" ++ [9]) := by
      decide
    rw [h0]
    simp
  rw [fullChunk, h]

theorem fullChunk_length : fullChunk.length = defaultBufSize := by
  have h : (ascii "----------\tu/g\t").length = 15 := by decide
  rw [fullChunk, List.length_append, List.length_replicate, h, defaultBufSize]

theorem fullChunk_mem (b : Byte) (h : b ∈ fullChunk) :
    b ∈ ascii "----------\tu/g\t" ∨ b = 97 := by
  rcases List.mem_append.mp h with h | h
  · exact Or.inl h
  · exact Or.inr (List.eq_of_mem_replicate h)

theorem isEntryOfLine_fullChunk (t : Bytes) (ht : 9 ∉ t) :
    isEntryOfLine (fullChunk ++ t)
      { Perms := 0, Path := List.replicate 4081 97 ++ t, Uid := ascii "u", Gid := ascii "g" } := by
  have h9 : (9 : Byte) ∉ List.replicate 4081 97 ++ t := by
    intro h
    rcases List.mem_append.mp h with h | h
    · exact absurd (List.eq_of_mem_replicate h) (by decide)
    · exact ht h
  have hp : parsePerms (ascii "----------") = .ok 0 := by decide
  have ho : Split 47 (ascii "u/g") = [ascii "u", ascii "g"] := by decide
  refine ⟨ascii "----------", ascii "u/g", List.replicate 4081 97 ++ t, ?_, hp, ho, rfl⟩
  have e1 : fullChunk ++ t
      = ascii "----------" ++ 9 :: (ascii "u/g" ++ 9 :: (List.replicate 4081 97 ++ t)) := by
    rw [fullChunk_eq, List.append_assoc, List.cons_append, List.append_assoc, List.cons_append]
  rw [e1, Split_append 9 _ _ (by decide), Split_append 9 _ _ (by decide), Split_no_sep 9 _ h9]

theorem Parse_loop_fullChunk (rest : Bytes) (fuel : Nat) (acc : EntrySeq) :
    Parse.loop (fuel + 1) (fullChunk ++ rest) acc
      = Parse.loop fuel rest (acc ++ [fullChunkEntry]) := by
  have h10 : (10 : Byte) ∉ fullChunk := by
    intro h
    rcases fullChunk_mem 10 h with h | h <;> revert h <;> decide
  have h13 : fullChunk.getLast? ≠ some 13 := by
    intro h
    rcases fullChunk_mem 13 (List.mem_of_getLast?_eq_some h) with h | h <;> revert h <;> decide
  have he : Parse.line fullChunk = .ok fullChunkEntry := by
    have := Parse_line_of_entry _ _ (isEntryOfLine_fullChunk [] (List.not_mem_nil 9))
    rw [List.append_nil, List.append_nil] at this
    exact this
  rw [Parse.loop, ReadLine_full fullChunk rest h10 fullChunk_length h13]
  simp only [he]

theorem Parse_fullChunk (x : Bytes) (hx : 10 ∉ x) (hlen : x.length < defaultBufSize) :
    Parse (fullChunk ++ x ++ [10]) = Parse.lines [chomp x] [fullChunkEntry] := by
  have hs : shortLines [x] [] :=
    ⟨fun s h => by rw [List.mem_singleton.mp h]; exact ⟨hx, hlen⟩, by simp, by simp [defaultBufSize]⟩
  have ht : textOf [x] [] = x ++ [10] := by
    simp [textOf]
  have hl : linesOf [x] [] = [chomp x] := by
    simp [linesOf]
  rw [Parse, List.append_assoc, ← ht, List.length_append, Parse_loop_fullChunk,
    Parse_loop_eq_lines [x] [] hs _ _ (by rw [fullChunk_length, defaultBufSize]; omega), hl]
  rfl

theorem longLine_eq : longLine = fullChunk ++ List.replicate 15 97 := by
  rw [longLine, fullChunk, List.append_assoc, List.append_replicate_replicate]

theorem not_mem_replicate (b a : Byte) (n : Nat) (h : b ≠ a) : b ∉ List.replicate n a :=
  fun hm => h (List.eq_of_mem_replicate hm)

theorem Parse_longLine :
    Parse (longLine ++ [10]) = .error (.improperlySeparated (List.replicate 15 97)) := by
  rw [longLine_eq, Parse_fullChunk _ (by decide) (by decide)]
  have h1 : chomp (List.replicate 15 97) = List.replicate 15 97 := by decide
  have h2 : Parse.line (List.replicate 15 97)
      = .error (.improperlySeparated (List.replicate 15 97)) := by decide
  rw [h1, Parse.lines, h2]

theorem isEntryOfLine_longLine : isEntryOfLine longLine longEntry := by
  have h := isEntryOfLine_fullChunk (List.replicate 15 97) (by decide)
  rw [List.append_replicate_replicate, ← longLine_eq] at h
  exact h

theorem List_String_single (e : Entry) : (footprint.List.mk [e]).String = e.String ++ [10] := by
  simp [List_String_textOf, textOf]

theorem longEntry_String : longEntry.String = longLine := by
  have h0 : FileMode.String 0 = ascii "----------" := by decide
  have h1 : ∀ p : Bytes, ascii "----------" ++ 9 :: (ascii "u" ++ 47 :: (ascii "g" ++ 9 :: p))
      = ascii "----------\tu/g\t" ++ p := by
    intro p
    have h2 : ascii "----------\tu/g\t"
        = ascii "----------" ++ 9 :: (ascii "u" ++ 47 :: (ascii "g" ++ [9])) := by decide
    rw [h2]
    simp
  rw [Entry_String_eq, longLine]
  exact (congrArg (fun t => t ++ 9 :: (ascii "u" ++ 47 :: (ascii "g" ++ 9 ::
    List.replicate 4096 97))) h0).trans (h1 _)

/-! ## Inputs on which the claims as stated fail, and instances -/

theorem Parse_String_roundtrip_witness :
    (∀ e ∈ (footprint.List.mk [⟨0o755, ascii "/a", ascii "u", ascii "g"⟩,
        ⟨0o644, ascii "/b/c", ascii "root", ascii "wheel"⟩]).entries,
      isWellFormedEntry e ∧ e.Path.getLast? ≠ some 13 ∧ e.String.length < defaultBufSize) ∧
    Parse (footprint.List.mk [⟨0o755, ascii "/a", ascii "u", ascii "g"⟩,
        ⟨0o644, ascii "/b/c", ascii "root", ascii "wheel"⟩]).String
      = .ok (footprint.List.mk [⟨0o755, ascii "/a", ascii "u", ascii "g"⟩,
        ⟨0o644, ascii "/b/c", ascii "root", ascii "wheel"⟩]) :=
  ⟨by decide, Parse_String_roundtrip _ (by decide)⟩

/-- C1 (as stated) fails: the entry with path `/a\r` is well-formed (no tab,
newline or `/` where excluded, permission bits within `0o777`), and `Parse` of
the rendering of the ledger holding it returns an entry with the path `/a`;
the entry `longEntry`, with a path of 4096 bytes, is well-formed too, and
`Parse` of the rendering of the ledger holding it returns an error. -/
theorem Parse_String_not_roundtrip :
    (isWellFormedEntry ⟨0o644, ascii "/a\r", ascii "u", ascii "g"⟩ ∧
      Parse (footprint.List.mk [⟨0o644, ascii "/a\r", ascii "u", ascii "g"⟩]).String
        = .ok (footprint.List.mk [⟨0o644, ascii "/a", ascii "u", ascii "g"⟩]) ∧
      Parse (footprint.List.mk [⟨0o644, ascii "/a\r", ascii "u", ascii "g"⟩]).String
        ≠ .ok (footprint.List.mk [⟨0o644, ascii "/a\r", ascii "u", ascii "g"⟩])) ∧
    (isWellFormedEntry longEntry ∧
      Parse (footprint.List.mk [longEntry]).String
        = .error (.improperlySeparated (List.replicate 15 97))) := by
  refine ⟨by decide, ?_, ?_⟩
  · have h9 := not_mem_replicate 9 97 4096 (by decide)
    have h10 := not_mem_replicate 10 97 4096 (by decide)
    exact ⟨by decide, by decide, by decide, h9, h10⟩
  · rw [List_String_single, longEntry_String]
    exact Parse_longLine

theorem Parse_of_wellformed_lines_witness :
    shortLines [ascii "-rwxr-xr-x\tu/g\t/a", ascii "----------\troot/wheel\t/b\r"]
      (ascii "drwx------\tu/g\t/c") ∧
    (∀ l ∈ linesOf [ascii "-rwxr-xr-x\tu/g\t/a", ascii "----------\troot/wheel\t/b\r"]
      (ascii "drwx------\tu/g\t/c"), ∃ e, isEntryOfLine l e) ∧
    ∃ es, Parse (textOf [ascii "-rwxr-xr-x\tu/g\t/a", ascii "----------\troot/wheel\t/b\r"]
        (ascii "drwx------\tu/g\t/c")) = .ok { entries := es } ∧
      List.Forall₂ isEntryOfLine
        (linesOf [ascii "-rwxr-xr-x\tu/g\t/a", ascii "----------\troot/wheel\t/b\r"]
          (ascii "drwx------\tu/g\t/c")) es := by
  have hg : ∀ l ∈ linesOf [ascii "-rwxr-xr-x\tu/g\t/a", ascii "----------\troot/wheel\t/b\r"]
      (ascii "drwx------\tu/g\t/c"), ∃ e, isEntryOfLine l e := by
    intro l hl
    have hlines : linesOf [ascii "-rwxr-xr-x\tu/g\t/a", ascii "----------\troot/wheel\t/b\r"]
        (ascii "drwx------\tu/g\t/c")
        = [ascii "-rwxr-xr-x\tu/g\t/a", ascii "----------\troot/wheel\t/b",
          ascii "drwx------\tu/g\t/c"] := by decide
    rw [hlines] at hl
    simp only [List.mem_cons, List.mem_nil_iff, or_false] at hl
    rcases hl with rfl | rfl | rfl
    · exact ⟨⟨0o755, ascii "/a", ascii "u", ascii "g"⟩, ascii "-rwxr-xr-x", ascii "u/g",
        ascii "/a", by decide, by decide, by decide, rfl⟩
    · exact ⟨⟨0, ascii "/b", ascii "root", ascii "wheel"⟩, ascii "----------",
        ascii "root/wheel", ascii "/b", by decide, by decide, by decide, rfl⟩
    · exact ⟨⟨0o700, ascii "/c", ascii "u", ascii "g"⟩, ascii "drwx------", ascii "u/g",
        ascii "/c", by decide, by decide, by decide, rfl⟩
  exact ⟨by decide, hg, Parse_of_wellformed_lines _ _ (by decide) hg⟩

theorem Parse_all_or_nothing_witness :
    shortLines [ascii "-rwxr-xr-x\tu/g\t/a", ascii "no tabs here"] [] ∧
    linesOf [ascii "-rwxr-xr-x\tu/g\t/a", ascii "no tabs here"] []
      = [ascii "-rwxr-xr-x\tu/g\t/a"] ++ ascii "no tabs here" :: [] ∧
    isMalformedLine (ascii "no tabs here") ∧
    ((Parse (textOf [ascii "-rwxr-xr-x\tu/g\t/a", ascii "no tabs here"] []) = .panic ∨
      ∃ err, Parse (textOf [ascii "-rwxr-xr-x\tu/g\t/a", ascii "no tabs here"] [])
        = .error err) ∧
    ((∀ l ∈ [ascii "-rwxr-xr-x\tu/g\t/a"], lacksSlash l → isMalformedLine l) →
      ∃ err, Parse (textOf [ascii "-rwxr-xr-x\tu/g\t/a", ascii "no tabs here"] [])
        = .error err)) :=
  ⟨by decide, by decide, Or.inl (by decide),
    Parse_all_or_nothing [ascii "-rwxr-xr-x\tu/g\t/a", ascii "no tabs here"] []
      [ascii "-rwxr-xr-x\tu/g\t/a"] [] (ascii "no tabs here") (by decide) (by decide)
      (Or.inl (by decide))⟩

/-- C5 (as stated) fails: in the input `----------\tu\t/a\nx\n` the second
line `x` does not split into three fields, and `Parse` panics on the first
line instead of returning an error; `longMalformedLine` is one line without
newline that splits into five tab-separated fields, not three, and `Parse` of
it followed by a newline returns a ledger of two entries. -/
theorem Parse_panics_or_accepts_malformed :
    (isMalformedLine (ascii "x") ∧ Parse (ascii "----------\tu\t/a\nx\n") = .panic) ∧
    ((Split 9 longMalformedLine).length = 5 ∧ isMalformedLine longMalformedLine ∧
      10 ∉ longMalformedLine ∧
      Parse (longMalformedLine ++ [10])
        = .ok { entries := [fullChunkEntry, ⟨0, ascii "b", ascii "u", ascii "g"⟩] }) := by
  refine ⟨⟨Or.inl (by decide), by decide⟩, ?_⟩
  have h5 : (Split 9 longMalformedLine).length = 5 := by
    have e1 : longMalformedLine
        = ascii "----------" ++ 9 :: (ascii "u/g" ++ 9 :: ((List.replicate 4081 97
          ++ ascii "----------") ++ 9 :: ascii "u/g\tb")) := by
      have h : ascii "----------\tu/g\tb" = ascii "----------" ++ 9 :: ascii "u/g\tb" := by
        decide
      rw [longMalformedLine, fullChunk_eq, h, List.append_assoc, List.cons_append,
        List.append_assoc, List.cons_append, List.append_assoc]
    have h9 : (9 : Byte) ∉ List.replicate 4081 97 ++ ascii "----------" := by
      intro h
      rcases List.mem_append.mp h with h | h
      · exact absurd (List.eq_of_mem_replicate h) (by decide)
      · revert h
        decide
    rw [e1, Split_append 9 _ _ (by decide), Split_append 9 _ _ (by decide),
      Split_append 9 _ _ h9]
    decide
  refine ⟨h5, Or.inl (by rw [h5]; decide), ?_, ?_⟩
  · intro h
    rcases List.mem_append.mp h with h | h
    · rcases fullChunk_mem 10 h with h | h <;> revert h <;> decide
    · revert h
      decide
  · rw [longMalformedLine, Parse_fullChunk _ (by decide) (by decide)]
    have h1 : chomp (ascii "----------\tu/g\tb") = ascii "----------\tu/g\tb" := by decide
    have h2 : Parse.line (ascii "----------\tu/g\tb")
        = .ok ⟨0, ascii "b", ascii "u", ascii "g"⟩ := by decide
    rw [h1, Parse.lines, h2]
    rfl

/-! ## The lines of the serialized text (claims C11, C12) -/

theorem Split_textOf (segs : List Bytes) (h : ∀ s ∈ segs, 10 ∉ s) :
    Split 10 (textOf segs []) = segs ++ [[]] := by
  induction segs with
  | nil => rfl
  | cons s segs ih =>
    rw [textOf_cons, Split_append 10 _ _ (h s (List.mem_cons_self _ _)),
      ih (fun x hx => h x (List.mem_cons_of_mem _ hx))]
    rfl

theorem Entry_String_fields (e : Entry) (h : hasPlainFields e) :
    Split 9 e.String = [FileMode.String e.Perms, e.Uid ++ 47 :: e.Gid, e.Path] := by
  obtain ⟨⟨hu9, _⟩, ⟨hg9, _⟩, hp9, _⟩ := h
  rw [Entry_String_eq, Split_append 9 _ _ (FileMode_String_no_tab e.Perms)]
  have e1 : e.Uid ++ 47 :: (e.Gid ++ 9 :: e.Path) = (e.Uid ++ 47 :: e.Gid) ++ 9 :: e.Path := by
    simp
  rw [e1, Split_append 9 _ _ (by simp [hu9, hg9]), Split_no_sep 9 _ hp9]

theorem Entry_String_plain (e : Entry) (h : hasPlainFields e) : (10 : Byte) ∉ e.String := by
  obtain ⟨⟨_, hu⟩, ⟨_, hg⟩, _, hp⟩ := h
  rw [Entry_String_eq]
  have := FileMode_String_no_newline e.Perms
  simp [this, hu, hg, hp]

/-- C11 (as amended): for every ledger whose entries have no tab and no newline
in owner, group and path, `String()` consists of exactly one line for each
entry, in order, each terminated by a newline (nothing follows the last
newline), and each line is made of exactly three tab-separated fields: the
rendering of `Perms`, `Uid/Gid` and `Path`. -/
theorem List_String_lines (l : footprint.List) (h : ∀ e ∈ l.entries, hasPlainFields e) :
    l.String = textOf (l.entries.map Entry.String) [] ∧
    Split 10 l.String = l.entries.map Entry.String ++ [[]] ∧
    (l.entries.map Entry.String).length = l.Len ∧
    ∀ e ∈ l.entries,
      Split 9 e.String = [FileMode.String e.Perms, e.Uid ++ 47 :: e.Gid, e.Path] := by
  refine ⟨List_String_textOf l, ?_, by simp [footprint.List.Len],
    fun e he => Entry_String_fields e (h e he)⟩
  rw [List_String_textOf]
  apply Split_textOf
  intro s hs
  obtain ⟨e, he, rfl⟩ := List.mem_map.mp hs
  exact Entry_String_plain e (h e he)

theorem List_String_lines_witness :
    (∀ e ∈ (footprint.List.mk [⟨0o755, ascii "/a b", ascii "u", ascii "g"⟩,
        ⟨2 ^ 31 + 0o700, ascii "/c", ascii "root", ascii "wheel"⟩]).entries,
      hasPlainFields e) ∧
    ((footprint.List.mk [⟨0o755, ascii "/a b", ascii "u", ascii "g"⟩,
        ⟨2 ^ 31 + 0o700, ascii "/c", ascii "root", ascii "wheel"⟩]).String
      = textOf ((footprint.List.mk [⟨0o755, ascii "/a b", ascii "u", ascii "g"⟩,
        ⟨2 ^ 31 + 0o700, ascii "/c", ascii "root", ascii "wheel"⟩]).entries.map
          Entry.String) [] ∧
    Split 10 (footprint.List.mk [⟨0o755, ascii "/a b", ascii "u", ascii "g"⟩,
        ⟨2 ^ 31 + 0o700, ascii "/c", ascii "root", ascii "wheel"⟩]).String
      = (footprint.List.mk [⟨0o755, ascii "/a b", ascii "u", ascii "g"⟩,
        ⟨2 ^ 31 + 0o700, ascii "/c", ascii "root", ascii "wheel"⟩]).entries.map
          Entry.String ++ [[]] ∧
    ((footprint.List.mk [⟨0o755, ascii "/a b", ascii "u", ascii "g"⟩,
        ⟨2 ^ 31 + 0o700, ascii "/c", ascii "root", ascii "wheel"⟩]).entries.map
          Entry.String).length
      = (footprint.List.mk [⟨0o755, ascii "/a b", ascii "u", ascii "g"⟩,
        ⟨2 ^ 31 + 0o700, ascii "/c", ascii "root", ascii "wheel"⟩]).Len ∧
    ∀ e ∈ (footprint.List.mk [⟨0o755, ascii "/a b", ascii "u", ascii "g"⟩,
        ⟨2 ^ 31 + 0o700, ascii "/c", ascii "root", ascii "wheel"⟩]).entries,
      Split 9 e.String = [FileMode.String e.Perms, e.Uid ++ 47 :: e.Gid, e.Path]) :=
  ⟨by decide, List_String_lines _ (by decide)⟩

/-- C11 (as stated) fails: the ledger of the one entry with path `a\nb` renders
as two newline-terminated lines, not one; and the one line of the ledger of the
one entry with path `a\tb` has four tab-separated fields, not three. -/
theorem List_String_lines_unvalidated :
    ((footprint.List.mk [⟨0o644, ascii "a\nb", ascii "u", ascii "g"⟩]).Len = 1 ∧
      Split 10 (footprint.List.mk [⟨0o644, ascii "a\nb", ascii "u", ascii "g"⟩]).String
        = [ascii "-rw-r--r--\tu/g\ta", ascii "b", []]) ∧
    (Split 10 (footprint.List.mk [⟨0o644, ascii "a\tb", ascii "u", ascii "g"⟩]).String
        = [ascii "-rw-r--r--\tu/g\ta\tb", []] ∧
      (Split 9 (ascii "-rw-r--r--\tu/g\ta\tb")).length = 4) := by
  decide

/-- C12: the zero value of `List` (no entries) has `Len() = 0` and
`String() = ""`, and can be added to at once; `Parse` of the empty input
succeeds with the ledger without entries, whose `Len()` is 0. -/
theorem List_zero_value :
    (footprint.List.mk []).Len = 0 ∧
    (footprint.List.mk []).String = [] ∧
    (∀ e, ((footprint.List.mk []).Add e).entries = [e] ∧
      ((footprint.List.mk []).Add e).Len = 1) ∧
    Parse [] = .ok (footprint.List.mk []) ∧
    (∀ l, Parse [] = .ok l → l.Len = 0) ∧
    Parse (footprint.List.mk []).String = .ok (footprint.List.mk []) := by
  refine ⟨rfl, rfl, fun e => ⟨rfl, rfl⟩, by decide, ?_, by decide⟩
  intro l hl
  have h0 : Parse [] = .ok (footprint.List.mk []) := by decide
  rw [h0] at hl
  cases hl
  rfl

/-! ## Create, Len, Validate and Remove (claims C13, C14) -/

theorem MakeEntry_path {σ : Type} (sys : Host σ) (st : σ) (f : File) (entry : Entry)
    (h : MakeEntry sys st f = .ok entry) : sys.Abs st f.name = .ok entry.Path := by
  unfold MakeEntry at h
  cases hs : sys.Stat st f.name with
  | error err => simp [hs] at h
  | ok info =>
    cases ha : sys.Abs st f.name with
    | error err => simp [hs, ha] at h
    | ok path =>
      cases hu : sys.LookupId st (FormatUint info.Uid) with
      | error err => simp [hs, ha, hu] at h
      | ok uid =>
        cases hg : sys.LookupGroupId st (FormatUint info.Gid) with
        | error err => simp [hs, ha, hu, hg] at h
        | ok gid =>
          simp only [hs, ha, hu, hg, Except.ok.injEq] at h
          rw [← h]

/-- C13: `Create` changes the ledger all at once or not at all. If `os.Create`
fails, or if `MakeEntry` on the new file fails, `Create` returns that error and
no file, and the ledger is unchanged; if both succeed, `Create` returns the
file, the entry `MakeEntry` returned is appended at the end, `Len()` is one
more, and the path of that entry is the absolute path of the name of the
file. -/
theorem Create_all_or_nothing {σ : Type} (sys : Host σ) (st : σ) (l : footprint.List)
    (name : Bytes) :
    (∀ st1 err, sys.Create st name = (st1, .error err) →
      l.Create sys st name = (st1, l, .error err)) ∧
    (∀ st1 file err, sys.Create st name = (st1, .ok file) →
      MakeEntry sys st1 file = .error err →
      l.Create sys st name = (st1, l, .error err)) ∧
    (∀ st1 file entry, sys.Create st name = (st1, .ok file) →
      MakeEntry sys st1 file = .ok entry →
      l.Create sys st name = (st1, l.Add entry, .ok file) ∧
      (l.Create sys st name).2.1.entries = l.entries ++ [entry] ∧
      (l.Create sys st name).2.1.Len = l.Len + 1 ∧
      sys.Abs st1 file.name = .ok entry.Path) := by
  refine ⟨?_, ?_, ?_⟩
  · intro st1 err hc
    simp [footprint.List.Create, hc]
  · intro st1 file err hc hm
    simp [footprint.List.Create, hc, hm]
  · intro st1 file entry hc hm
    have h : l.Create sys st name = (st1, l.Add entry, .ok file) := by
      simp [footprint.List.Create, hc, hm]
    refine ⟨h, ?_, ?_, MakeEntry_path sys st1 file entry hm⟩
    · rw [h]
      rfl
    · rw [h]
      simp [footprint.List.Add, footprint.List.Len]

theorem Create_all_or_nothing_witness :
    ((footprint.List.mk []).Create exampleHost () []
        = ((), footprint.List.mk [], .error (ascii "open : no such file or directory"))) ∧
    ((footprint.List.mk []).Create exampleHost () (ascii "orphan")
        = ((), footprint.List.mk [], .error (ascii "group: unknown groupid"))) ∧
    ((footprint.List.mk []).Create exampleHost () (ascii "somefile")
        = ((), footprint.List.mk [⟨0o644, ascii "/tmp/somefile", ascii "root", ascii "wheel"⟩],
          .ok { name := ascii "somefile" })) :=
  ⟨(Create_all_or_nothing exampleHost () (footprint.List.mk []) []).1 () _ rfl,
    (Create_all_or_nothing exampleHost () (footprint.List.mk []) (ascii "orphan")).2.1 ()
      { name := ascii "orphan" } _ rfl rfl,
    ((Create_all_or_nothing exampleHost () (footprint.List.mk []) (ascii "somefile")).2.2 ()
      { name := ascii "somefile" } ⟨0o644, ascii "/tmp/somefile", ascii "root", ascii "wheel"⟩
      rfl rfl).1⟩

theorem run_without_Add (l : footprint.List) (calls : CallSeq)
    (h : ∀ e, Call.Add e ∉ calls) :
    (l.run calls).1 = l ∧ ∀ r ∈ (l.run calls).2, ∀ n, r = .len n → n = l.Len := by
  induction calls with
  | nil => simp [footprint.List.run]
  | cons c cs ih =>
    have hcs : ∀ e, Call.Add e ∉ cs := fun e he => h e (List.mem_cons_of_mem _ he)
    obtain ⟨ih1, ih2⟩ := ih hcs
    have hc : (l.call c).1 = l := by
      cases c with
      | Len => rfl
      | Validate => rfl
      | Remove name => rfl
      | Add e => exact absurd (List.mem_cons_self _ _) (h e)
    rw [footprint.List.run, hc]
    refine ⟨ih1, ?_⟩
    intro r hr n hn
    rcases List.mem_cons.mp hr with rfl | hr
    · cases c with
      | Len =>
        simp only [footprint.List.call, Reply.len.injEq] at hn
        exact hn.symm
      | Validate => simp [footprint.List.call] at hn
      | Remove name => simp [footprint.List.call] at hn
      | Add e => exact absurd (List.mem_cons_self _ _) (h e)
    · exact ih2 r hr n hn

/-- C14: `Validate()` and `Remove(name)` return nil and leave the ledger as it
is, for every ledger and every name, also the path of a tracked entry; after
any sequence of calls of `Len`, `Validate` and `Remove` the ledger is unchanged
and every `Len()` of the sequence returned the same value, the number of
entries. -/
theorem Len_Validate_Remove_read_only (l : footprint.List) :
    l.Validate = (l, none) ∧
    (∀ name, l.Remove name = (l, none)) ∧
    (∀ e ∈ l.entries, (l.Remove e.Path).1.entries = l.entries ∧ e ∈ (l.Remove e.Path).1.entries) ∧
    (∀ calls : CallSeq, (∀ e, Call.Add e ∉ calls) →
      (l.run calls).1 = l ∧ ∀ r ∈ (l.run calls).2, ∀ n, r = .len n → n = l.Len) := by
  refine ⟨rfl, fun _ => rfl, fun e he => ⟨rfl, he⟩, fun calls h => run_without_Add l calls h⟩

/-! ## The body of the loop of Parse (claims C16, C17, C18) -/

theorem chomp_of_ne (l : Bytes) (h : l.getLast? ≠ some 13) : chomp l = l := by
  simp [chomp, h]

theorem Parse_single (l : Bytes) (h10 : 10 ∉ l) (hlen : l.length < defaultBufSize) :
    Parse (l ++ [10]) = Parse.lines [chomp l] [] := by
  have hs : shortLines [l] [] :=
    ⟨fun s h => by rw [List.mem_singleton.mp h]; exact ⟨h10, hlen⟩, by simp,
      by simp [defaultBufSize]⟩
  have ht : textOf [l] [] = l ++ [10] := by
    simp [textOf]
  have hl : linesOf [l] [] = [chomp l] := by
    simp [linesOf]
  rw [← ht, Parse_eq_lines [l] [] hs, hl]

theorem Parse_lines_accepts (ls : List Bytes) (acc : EntrySeq)
    (h : ∀ x ∈ ls, ∃ e, Parse.line x = .ok e) :
    ∃ es : EntrySeq, es.length = ls.length ∧
      ∀ rest, Parse.lines (ls ++ rest) acc = Parse.lines rest (acc ++ es) := by
  induction ls generalizing acc with
  | nil => exact ⟨[], rfl, fun rest => by simp⟩
  | cons x ls ih =>
    obtain ⟨e, he⟩ := h x (List.mem_cons_self _ _)
    obtain ⟨es, hlen, hes⟩ := ih (acc ++ [e]) (fun y hy => h y (List.mem_cons_of_mem _ hy))
    refine ⟨e :: es, by simp [hlen], ?_⟩
    intro rest
    rw [List.cons_append, Parse.lines, he]
    simp only
    rw [hes rest]
    simp

theorem Parse_lines_panic (pre post : List Bytes) (l : Bytes) (acc : EntrySeq)
    (hpre : ∀ x ∈ pre, ∃ e, Parse.line x = .ok e) (hl : Parse.line l = .panic) :
    Parse.lines (pre ++ l :: post) acc = .panic := by
  obtain ⟨es, _, hes⟩ := Parse_lines_accepts pre acc hpre
  rw [hes, Parse.lines, hl]

theorem Parse_lines_at (pre post : List Bytes) (l : Bytes) (e : Entry)
    (hpre : ∀ x ∈ pre, ∃ e, Parse.line x = .ok e)
    (hpost : ∀ x ∈ post, ∃ e, Parse.line x = .ok e) (hl : Parse.line l = .ok e) :
    ∃ es1 es2 : EntrySeq, Parse.lines (pre ++ l :: post) [] = .ok { entries := es1 ++ e :: es2 } ∧
      es1.length = pre.length ∧ es2.length = post.length := by
  obtain ⟨es1, hlen1, hes1⟩ := Parse_lines_accepts pre [] hpre
  obtain ⟨es2, hlen2, hes2⟩ := Parse_lines_accepts post ([] ++ es1 ++ [e]) hpost
  refine ⟨es1, es2, ?_, hlen1, hlen2⟩
  rw [hes1, Parse.lines, hl]
  simp only
  have := hes2 []
  rw [List.append_nil] at this
  rw [this, Parse.lines]
  simp

/-- C16 (as amended): `Parse` does not check the number of parts of the
owner/group field: on every line with exactly three tab-separated fields and a
valid permission field whose second field has no `/`, the body of the loop of
`Parse` does not return a format error but panics (`owners[1]` is out of
range), whatever the length of the line; so `Parse` panics on every input whose
newline-terminated pieces are shorter than 4096 bytes and in which such a line
is preceded only by lines `Parse` accepts, and on such a line alone. -/
theorem Parse_panics_without_slash (l p0 p1 p2 : Bytes) (m : Nat)
    (h3 : Split 9 l = [p0, p1, p2]) (hp : parsePerms p0 = .ok m) (hs : 47 ∉ p1) :
    Parse.line l = .panic ∧
    (∀ err, Parse.line l ≠ .error err) ∧
    (∀ segs last pre post, shortLines segs last → linesOf segs last = pre ++ l :: post →
      (∀ x ∈ pre, ∃ e, Parse.line x = .ok e) → Parse (textOf segs last) = .panic) ∧
    (10 ∉ l → l.length < defaultBufSize → l.getLast? ≠ some 13 →
      Parse (l ++ [10]) = .panic) := by
  have hl : Parse.line l = .panic := by
    simp [Parse.line, h3, hp, Split_no_sep 47 p1 hs]
  refine ⟨hl, ?_, ?_, ?_⟩
  · intro err he
    rw [hl] at he
    cases he
  · intro segs last pre post hshort hlines hpre
    rw [Parse_eq_lines segs last hshort, hlines]
    exact Parse_lines_panic pre post l [] hpre hl
  · intro h10 hlen hcr
    rw [Parse_single l h10 hlen, chomp_of_ne l hcr]
    simp [Parse.lines, hl]

theorem Parse_panics_without_slash_witness :
    Split 9 (ascii "-rw-r--r--\troot\t/etc/passwd")
      = [ascii "-rw-r--r--", ascii "root", ascii "/etc/passwd"] ∧
    parsePerms (ascii "-rw-r--r--") = .ok 0o644 ∧
    47 ∉ ascii "root" ∧
    Parse (ascii "-rw-r--r--\troot\t/etc/passwd" ++ [10]) = .panic :=
  ⟨by decide, by decide, by decide,
    (Parse_panics_without_slash (ascii "-rw-r--r--\troot\t/etc/passwd") (ascii "-rw-r--r--")
      (ascii "root") (ascii "/etc/passwd") 0o644 (by decide) (by decide) (by decide)).2.2.2
      (by decide) (by decide) (by decide)⟩

/-- C17: for every string of ten bytes whose bytes at positions 1 to 9 are all
among `r`, `w`, `x`, `-`, `parsePerms` returns `64*g1 + 8*g2 + g3`, where `gk`
is the sum over the k-th group of three bytes of the weights 4 for `r`, 2 for
`w`, 1 for `x` and 0 for `-`; the weight is that of the letter, whatever its
position in the group. -/
theorem parsePerms_weighted_sum (s : Bytes) (hlen : s.length = 10)
    (hv : ∀ i, 1 ≤ i → i ≤ 9 → ∀ c, s[i]? = some c → isPermChar c) :
    parsePerms s = .ok (64 * permGroup s 1 + 8 * permGroup s 4 + permGroup s 7) ∧
    (∀ i, permGroup s i
      = permWeight (s.getD i 0) + permWeight (s.getD (i + 1) 0) + permWeight (s.getD (i + 2) 0)) ∧
    permWeight 114 = 4 ∧ permWeight 119 = 2 ∧ permWeight 120 = 1 ∧ permWeight 45 = 0 := by
  refine ⟨?_, fun i => rfl, rfl, rfl, rfl, rfl⟩
  have hbad : ¬ hasBadPermChar s := by
    rintro ⟨i, h1, h9, c, hc, hn⟩
    exact hn (hv i h1 h9 c hc)
  obtain ⟨c0, c1, c2, c3, c4, c5, c6, c7, c8, c9, rfl⟩ := length_ten s hlen
  rw [hasBadPermChar_ten] at hbad
  simp only [not_or, not_not] at hbad
  obtain ⟨p1, p2, p3, p4, p5, p6, p7, p8, p9⟩ := hbad
  rw [parsePerms_ten, if_neg (not_not.mpr p1), if_neg (not_not.mpr p2),
    if_neg (not_not.mpr p3), if_neg (not_not.mpr p4), if_neg (not_not.mpr p5),
    if_neg (not_not.mpr p6), if_neg (not_not.mpr p7), if_neg (not_not.mpr p8),
    if_neg (not_not.mpr p9)]
  simp [permGroup]

theorem parsePerms_weighted_sum_witness :
    (ascii "-xwrrrr-w-").length = 10 ∧
    (∀ i, 1 ≤ i → i ≤ 9 → ∀ c, (ascii "-xwrrrr-w-")[i]? = some c → isPermChar c) ∧
    parsePerms (ascii "-xwrrrr-w-") = .ok (64 * 7 + 8 * 12 + 2) := by
  have hv : ∀ i, 1 ≤ i → i ≤ 9 → ∀ c, (ascii "-xwrrrr-w-")[i]? = some c → isPermChar c := by
    intro i h1 h9 c hc
    have hs : ascii "-xwrrrr-w-" = [45, 120, 119, 114, 114, 114, 114, 45, 119, 45] := by
      decide
    rw [hs] at hc
    interval_cases i <;> simp at hc <;> subst hc <;> decide
  exact ⟨by decide, hv, (parsePerms_weighted_sum (ascii "-xwrrrr-w-") (by decide) hv).1⟩

/-- C18 (as amended): on every line with exactly three tab-separated fields
and a valid permission field whose owner/group field has two `/`-separated
parts or more, the body of the loop of `Parse` returns no error, whatever the
length of the line: the entry has the first part as `Uid` and the second as
`Gid`, and the later parts are in no field of it; so `Parse` returns that entry
at the place of the line for every input whose newline-terminated pieces are
shorter than 4096 bytes and whose other lines `Parse` accepts, and for such a
line alone. -/
theorem Parse_drops_extra_owner_parts (l p0 p1 p2 u g : Bytes) (more : List Bytes) (m : Nat)
    (h3 : Split 9 l = [p0, p1, p2]) (hp : parsePerms p0 = .ok m)
    (ho : Split 47 p1 = u :: g :: more) :
    Parse.line l = .ok { Perms := m, Path := p2, Uid := u, Gid := g } ∧
    (∀ segs last pre post, shortLines segs last → linesOf segs last = pre ++ l :: post →
      (∀ x ∈ pre, ∃ e, Parse.line x = .ok e) → (∀ x ∈ post, ∃ e, Parse.line x = .ok e) →
      ∃ es1 es2 : EntrySeq,
        Parse (textOf segs last) = .ok (footprint.List.mk (es1 ++ ⟨m, p2, u, g⟩ :: es2)) ∧
        es1.length = pre.length ∧ es2.length = post.length) ∧
    (10 ∉ l → l.length < defaultBufSize → l.getLast? ≠ some 13 →
      Parse (l ++ [10]) = .ok (footprint.List.mk [⟨m, p2, u, g⟩])) := by
  have hl : Parse.line l = .ok { Perms := m, Path := p2, Uid := u, Gid := g } := by
    simp [Parse.line, h3, hp, ho]
  refine ⟨hl, ?_, ?_⟩
  · intro segs last pre post hshort hlines hpre hpost
    rw [Parse_eq_lines segs last hshort, hlines]
    exact Parse_lines_at pre post l _ hpre hpost hl
  · intro h10 hlen hcr
    rw [Parse_single l h10 hlen, chomp_of_ne l hcr]
    simp [Parse.lines, hl]

theorem Parse_drops_extra_owner_parts_witness :
    Split 9 (ascii "-rw-r--r--\troot/wheel/extra/parts\t/etc/passwd")
      = [ascii "-rw-r--r--", ascii "root/wheel/extra/parts", ascii "/etc/passwd"] ∧
    parsePerms (ascii "-rw-r--r--") = .ok 0o644 ∧
    Split 47 (ascii "root/wheel/extra/parts")
      = ascii "root" :: ascii "wheel" :: [ascii "extra", ascii "parts"] ∧
    Parse (ascii "-rw-r--r--\troot/wheel/extra/parts\t/etc/passwd" ++ [10])
      = .ok (footprint.List.mk [⟨0o644, ascii "/etc/passwd", ascii "root", ascii "wheel"⟩]) :=
  ⟨by decide, by decide, by decide,
    (Parse_drops_extra_owner_parts (ascii "-rw-r--r--\troot/wheel/extra/parts\t/etc/passwd")
      (ascii "-rw-r--r--") (ascii "root/wheel/extra/parts") (ascii "/etc/passwd")
      (ascii "root") (ascii "wheel") [ascii "extra", ascii "parts"] 0o644
      (by decide) (by decide) (by decide)).2.2 (by decide) (by decide) (by decide)⟩

/-! ## Lines that reach the end of the buffer (claims C19, C20) -/

theorem fullChunk_no_newline : (10 : Byte) ∉ fullChunk := by
  intro h
  rcases fullChunk_mem 10 h with h | h <;> revert h <;> decide

theorem fullChunk_no_cr : fullChunk.getLast? ≠ some 13 := by
  intro h
  rcases fullChunk_mem 13 (List.mem_of_getLast?_eq_some h) with h | h <;> revert h <;> decide

theorem isEntryOfLine_header (p : Bytes) (hp : 9 ∉ p) :
    isEntryOfLine (ascii "----------\tu/g\t" ++ p)
      { Perms := 0, Path := p, Uid := ascii "u", Gid := ascii "g" } := by
  have h0 : ascii "----------\tu/g\t" = ascii "----------" ++ 9 :: (ascii "u/g" ++ [9]) := by
    decide
  have e1 : ascii "----------\tu/g\t" ++ p
      = ascii "----------" ++ 9 :: (ascii "u/g" ++ 9 :: p) := by
    rw [h0]
    simp
  have hperm : parsePerms (ascii "----------") = .ok 0 := by decide
  have ho : Split 47 (ascii "u/g") = [ascii "u", ascii "g"] := by decide
  refine ⟨ascii "----------", ascii "u/g", p, ?_, hperm, ho, rfl⟩
  rw [e1, Split_append 9 _ _ (by decide), Split_append 9 _ _ (by decide), Split_no_sep 9 _ hp]

theorem cutRecord_mem (b : Byte) (h : b ∈ cutRecord) :
    b ∈ ascii "----------\tu/g\t" ∨ b = 97 := by
  rcases List.mem_append.mp h with h | h
  · exact Or.inl h
  · exact Or.inr (List.eq_of_mem_replicate h)

theorem cutRecord_length : cutRecord.length = 4095 := by
  have h : (ascii "----------\tu/g\t").length = 15 := by decide
  rw [cutRecord, List.length_append, List.length_replicate, h]

theorem cutRecord_no_newline : (10 : Byte) ∉ cutRecord := by
  intro h
  rcases cutRecord_mem 10 h with h | h <;> revert h <;> decide

theorem cutRecord_no_cr : cutRecord.getLast? ≠ some 13 := by
  intro h
  rcases cutRecord_mem 13 (List.mem_of_getLast?_eq_some h) with h | h <;> revert h <;> decide

theorem isEntryOfLine_cutRecord : isEntryOfLine cutRecord cutRecordEntry :=
  isEntryOfLine_header (List.replicate 4080 97) (not_mem_replicate 9 97 4080 (by decide))

theorem ReadLine_full_cr (init rest : Bytes) (h : 10 ∉ init)
    (hlen : init.length + 1 = defaultBufSize) :
    ReadLine (init ++ 13 :: rest) = (init, true, none, 13 :: rest) := by
  have h10 : (10 : Byte) ∉ init ++ [13] := by
    intro hm
    rcases List.mem_append.mp hm with hm | hm
    · exact h hm
    · simp at hm
  have hl : (init ++ [13]).length = defaultBufSize := by
    rw [List.length_append, List.length_singleton, hlen]
  have e1 : init ++ 13 :: rest = (init ++ [13]) ++ rest := by simp
  unfold ReadLine
  rw [e1, ReadSlice_full _ _ _ _ h10 hl]
  have hlast : (init ++ [13]).getLast? = some 13 := by simp
  have hpos : 0 < (init ++ [13]).length := by simp
  have htake : (init ++ [13]).take ((init ++ [13]).length - 1) = init := by
    rw [List.length_append, List.length_singleton, Nat.add_sub_cancel, List.take_left]
  simp only [if_true, hlast, hpos, and_self, htake]

theorem Parse_cutRecord_lf :
    Parse (cutRecord ++ [10]) = .ok (footprint.List.mk [cutRecordEntry]) := by
  rw [Parse_single cutRecord cutRecord_no_newline
    (by rw [cutRecord_length, defaultBufSize]; omega), chomp_of_ne cutRecord cutRecord_no_cr,
    Parse.lines, Parse_line_of_entry _ _ isEntryOfLine_cutRecord]
  rfl

theorem Parse_cutRecord_crlf :
    Parse (cutRecord ++ [13, 10]) = .error (.improperlySeparated []) := by
  have hs : shortLines [[13]] [] := by decide
  have ht : textOf [[13]] [] = [13, 10] := by decide
  have hl : linesOf [[13]] [] = [[]] := by decide
  have he : Parse.line [] = .error (.improperlySeparated []) := by decide
  have hlen : (cutRecord ++ [13, 10]).length = 4097 := by
    rw [List.length_append, cutRecord_length]
    rfl
  rw [Parse, hlen, Parse.loop,
    ReadLine_full_cr cutRecord [10] cutRecord_no_newline (by rw [cutRecord_length, defaultBufSize])]
  simp only [Parse_line_of_entry _ _ isEntryOfLine_cutRecord]
  rw [← ht, Parse_loop_eq_lines [[13]] [] hs _ _ (by rw [ht]; decide), hl, Parse.lines, he]

theorem Parse_crlf_below_buffer (r : Bytes) (h10 : 10 ∉ r) (hcr : r.getLast? ≠ some 13)
    (hlen : r.length + 1 < defaultBufSize) :
    Parse (r ++ [13, 10]) = Parse (r ++ [10]) := by
  have h10b : (10 : Byte) ∉ r ++ [13] := by
    intro hm
    rcases List.mem_append.mp hm with hm | hm
    · exact h10 hm
    · simp at hm
  have hc : chomp (r ++ [13]) = r := by
    simp [chomp]
  have e1 : r ++ [13, 10] = (r ++ [13]) ++ [10] := by simp
  rw [e1, Parse_single (r ++ [13]) h10b (by simpa using hlen), hc,
    Parse_single r h10 (by omega), chomp_of_ne r hcr]

/-- C19 (the code at a line longer than the buffer): `longLine` is one line of
4111 bytes without newline which, as a single record, has the entry
`longEntry`; `ReadLine` returns its first 4096 bytes as a line, with the flag
that more of the line follows, and `Parse`, which ignores the flag, takes the
remaining 15 bytes for a line of their own and returns an error. -/
theorem Parse_cuts_long_line :
    longLine.length = 4111 ∧ 10 ∉ longLine ∧
    Parse.line longLine = .ok longEntry ∧
    ReadLine (longLine ++ [10]) = (fullChunk, true, none, List.replicate 15 97 ++ [10]) ∧
    Parse (longLine ++ [10]) = .error (.improperlySeparated (List.replicate 15 97)) := by
  refine ⟨?_, ?_, Parse_line_of_entry _ _ isEntryOfLine_longLine, ?_, Parse_longLine⟩
  · have h : (ascii "----------\tu/g\t").length = 15 := by decide
    rw [longLine, List.length_append, List.length_replicate, h]
  · intro h
    rcases List.mem_append.mp h with h | h
    · revert h
      decide
    · exact not_mem_replicate 10 97 4096 (by decide) h
  · rw [longLine_eq, List.append_assoc]
    exact ReadLine_full fullChunk _ fullChunk_no_newline fullChunk_length fullChunk_no_cr

/-- C20 (the code at a record that ends one byte before the end of the
buffer): `cutRecord` is a well-formed record of 4095 bytes that does not end
with a carriage return; `Parse` of it followed by `\n` returns its entry, and
`Parse` of it followed by `\r\n` returns an error: the carriage return is the
last byte of the full buffer, it is put back, and `\r\n` is read as an empty
line. -/
theorem Parse_crlf_at_buffer_end :
    cutRecord.length = 4095 ∧ 10 ∉ cutRecord ∧ cutRecord.getLast? ≠ some 13 ∧
    isEntryOfLine cutRecord cutRecordEntry ∧
    Parse (cutRecord ++ [10]) = .ok (footprint.List.mk [cutRecordEntry]) ∧
    Parse (cutRecord ++ [13, 10]) = .error (.improperlySeparated []) :=
  ⟨cutRecord_length, cutRecord_no_newline, cutRecord_no_cr, isEntryOfLine_cutRecord,
    Parse_cutRecord_lf, Parse_cutRecord_crlf⟩

/-! ## Long lines in the body of the loop (claims C16, C18) -/

theorem Parse_line_bad_count (l : Bytes) (h : (Split 9 l).length ≠ 3) :
    Parse.line l = .error (.improperlySeparated l) := by
  unfold Parse.line
  split
  · rename_i p0 p1 p2 hs
    rw [hs] at h
    simp at h
  · rfl

theorem Parse_loop_chunk (w rest : Bytes) (fuel : Nat) (acc : EntrySeq) (e : Entry)
    (h10 : 10 ∉ w) (hlen : w.length = defaultBufSize) (hcr : w.getLast? ≠ some 13)
    (he : Parse.line w = .ok e) :
    Parse.loop (fuel + 1) (w ++ rest) acc = Parse.loop fuel rest (acc ++ [e]) := by
  rw [Parse.loop, ReadLine_full w rest h10 hlen hcr]
  simp only [he]

theorem Parse_loop_chunk_error (w rest : Bytes) (fuel : Nat) (acc : EntrySeq) (err : ParseErr)
    (h10 : 10 ∉ w) (hlen : w.length = defaultBufSize) (hcr : w.getLast? ≠ some 13)
    (he : Parse.line w = .error err) :
    Parse.loop (fuel + 1) (w ++ rest) acc = .error err := by
  rw [Parse.loop, ReadLine_full w rest h10 hlen hcr]
  simp only [he]

theorem header_replicate_mem (hdr : Bytes) (n : Nat) (b : Byte)
    (h : b ∈ hdr ++ List.replicate n 97) : b ∈ hdr ∨ b = 97 := by
  rcases List.mem_append.mp h with h | h
  · exact Or.inl h
  · exact Or.inr (List.eq_of_mem_replicate h)

theorem longOwnerLine_split :
    Split 9 longOwnerLine = [ascii "----------", List.replicate 4096 97, ascii "/p"] := by
  have e1 : ∀ r : Bytes, ascii "----------\t" ++ r ++ ascii "\t/p"
      = ascii "----------" ++ 9 :: (r ++ 9 :: ascii "/p") := by
    intro r
    have h1 : ascii "----------\t" = ascii "----------" ++ [9] := by decide
    have h2 : ascii "\t/p" = 9 :: ascii "/p" := by decide
    rw [h1, h2]
    simp
  rw [longOwnerLine, e1, Split_append 9 _ _ (by decide),
    Split_append 9 _ _ (not_mem_replicate 9 97 4096 (by decide)), Split_no_sep 9 _ (by decide)]

theorem longOwnerLine_cut :
    longOwnerLine ++ [10] = (ascii "----------\t" ++ List.replicate 4085 97)
      ++ (List.replicate 11 97 ++ (ascii "\t/p" ++ [10])) := by
  have e1 : ∀ r1 r2 t : Bytes, ascii "----------\t" ++ (r1 ++ r2) ++ t ++ [10]
      = (ascii "----------\t" ++ r1) ++ (r2 ++ (t ++ [10])) := by
    intro r1 r2 t
    simp
  rw [longOwnerLine, ← e1, List.append_replicate_replicate]

theorem Parse_longOwnerLine :
    Parse (longOwnerLine ++ [10])
      = .error (.improperlySeparated (ascii "----------\t" ++ List.replicate 4085 97)) := by
  have h10 : (10 : Byte) ∉ ascii "----------\t" ++ List.replicate 4085 97 := by
    intro h
    rcases header_replicate_mem _ _ _ h with h | h <;> revert h <;> decide
  have hcr : (ascii "----------\t" ++ List.replicate 4085 97).getLast? ≠ some 13 := by
    intro h
    rcases header_replicate_mem _ _ _ (List.mem_of_getLast?_eq_some h) with h | h <;>
      revert h <;> decide
  have hlen : (ascii "----------\t" ++ List.replicate 4085 97).length = defaultBufSize := by
    have h : (ascii "----------\t").length = 11 := by decide
    rw [List.length_append, List.length_replicate, h, defaultBufSize]
  have hsplit : Split 9 (ascii "----------\t" ++ List.replicate 4085 97)
      = [ascii "----------", List.replicate 4085 97] := by
    have e1 : ∀ r : Bytes, ascii "----------\t" ++ r = ascii "----------" ++ 9 :: r := by
      intro r
      have h1 : ascii "----------\t" = ascii "----------" ++ [9] := by decide
      rw [h1]
      simp
    rw [e1, Split_append 9 _ _ (by decide),
      Split_no_sep 9 _ (not_mem_replicate 9 97 4085 (by decide))]
  have hline := Parse_line_bad_count (ascii "----------\t" ++ List.replicate 4085 97)
    (by rw [hsplit]; decide)
  rw [Parse, longOwnerLine_cut]
  exact Parse_loop_chunk_error _ _ _ _ _ h10 hlen hcr hline

theorem longExtraLine_split :
    Split 9 longExtraLine
      = [ascii "----------", ascii "u/g/extra", List.replicate 4096 97] := by
  have e1 : ∀ r : Bytes, ascii "----------\tu/g/extra\t" ++ r
      = ascii "----------" ++ 9 :: (ascii "u/g/extra" ++ 9 :: r) := by
    intro r
    have h1 : ascii "----------\tu/g/extra\t"
        = ascii "----------" ++ 9 :: (ascii "u/g/extra" ++ [9]) := by decide
    rw [h1]
    simp
  rw [longExtraLine, e1, Split_append 9 _ _ (by decide), Split_append 9 _ _ (by decide),
    Split_no_sep 9 _ (not_mem_replicate 9 97 4096 (by decide))]

theorem longExtraLine_cut :
    longExtraLine ++ [10] = (ascii "----------\tu/g/extra\t" ++ List.replicate 4075 97)
      ++ textOf [List.replicate 21 97] [] := by
  have ht : textOf [List.replicate 21 97] [] = List.replicate 21 97 ++ [10] := by
    decide
  have e1 : ∀ r1 r2 : Bytes, ascii "----------\tu/g/extra\t" ++ (r1 ++ r2) ++ [10]
      = (ascii "----------\tu/g/extra\t" ++ r1) ++ (r2 ++ [10]) := by
    intro r1 r2
    simp
  rw [longExtraLine, ht, ← e1, List.append_replicate_replicate]

theorem Parse_longExtraLine :
    Parse (longExtraLine ++ [10]) = .error (.improperlySeparated (List.replicate 21 97)) := by
  have h10 : (10 : Byte) ∉ ascii "----------\tu/g/extra\t" ++ List.replicate 4075 97 := by
    intro h
    rcases header_replicate_mem _ _ _ h with h | h <;> revert h <;> decide
  have hcr : (ascii "----------\tu/g/extra\t" ++ List.replicate 4075 97).getLast? ≠ some 13 := by
    intro h
    rcases header_replicate_mem _ _ _ (List.mem_of_getLast?_eq_some h) with h | h <;>
      revert h <;> decide
  have hlen : (ascii "----------\tu/g/extra\t" ++ List.replicate 4075 97).length
      = defaultBufSize := by
    have h : (ascii "----------\tu/g/extra\t").length = 21 := by decide
    rw [List.length_append, List.length_replicate, h, defaultBufSize]
  have hsplit : Split 9 (ascii "----------\tu/g/extra\t" ++ List.replicate 4075 97)
      = [ascii "----------", ascii "u/g/extra", List.replicate 4075 97] := by
    have e1 : ∀ r : Bytes, ascii "----------\tu/g/extra\t" ++ r
        = ascii "----------" ++ 9 :: (ascii "u/g/extra" ++ 9 :: r) := by
      intro r
      have h1 : ascii "----------\tu/g/extra\t"
          = ascii "----------" ++ 9 :: (ascii "u/g/extra" ++ [9]) := by decide
      rw [h1]
      simp
    rw [e1, Split_append 9 _ _ (by decide), Split_append 9 _ _ (by decide),
      Split_no_sep 9 _ (not_mem_replicate 9 97 4075 (by decide))]
  have hperm : parsePerms (ascii "----------") = .ok 0 := by decide
  have ho : Split 47 (ascii "u/g/extra") = [ascii "u", ascii "g", ascii "extra"] := by decide
  have hline : Parse.line (ascii "----------\tu/g/extra\t" ++ List.replicate 4075 97)
      = .ok ⟨0, List.replicate 4075 97, ascii "u", ascii "g"⟩ := by
    unfold Parse.line
    rw [hsplit]
    simp only [hperm, ho]
    rfl
  have hs : shortLines [List.replicate 21 97] [] := by decide
  have hl : linesOf [List.replicate 21 97] [] = [List.replicate 21 97] := by decide
  have he : Parse.line (List.replicate 21 97)
      = .error (.improperlySeparated (List.replicate 21 97)) := by decide
  have hfuel : (textOf [List.replicate 21 97] []).length
      < ((ascii "----------\tu/g/extra\t" ++ List.replicate 4075 97)
        ++ textOf [List.replicate 21 97] []).length := by
    rw [List.length_append, hlen, defaultBufSize]
    omega
  rw [Parse, longExtraLine_cut, Parse_loop_chunk _ _ _ _ _ h10 hlen hcr hline,
    Parse_loop_eq_lines _ _ hs _ _ hfuel, hl, Parse.lines, he]

/-- C16 (as stated) fails: `longOwnerLine` is one line without newline, with
exactly three tab-separated fields, a valid permission field and a second field
without `/`, and `Parse` of it followed by a newline returns a format error for
the first 4096 bytes, with no panic; and in the input `x\n----------\tu\t/a\n`
the second line is such a line, and `Parse` returns a format error for the
first line, with no panic. -/
theorem Parse_format_error_without_slash :
    (Split 9 longOwnerLine = [ascii "----------", List.replicate 4096 97, ascii "/p"] ∧
      parsePerms (ascii "----------") = .ok 0 ∧
      47 ∉ List.replicate 4096 97 ∧ 10 ∉ longOwnerLine ∧
      Parse (longOwnerLine ++ [10])
        = .error (.improperlySeparated (ascii "----------\t" ++ List.replicate 4085 97))) ∧
    (Split 9 (ascii "----------\tu\t/a") = [ascii "----------", ascii "u", ascii "/a"] ∧
      47 ∉ ascii "u" ∧
      Parse (ascii "x\n----------\tu\t/a\n") = .error (.improperlySeparated (ascii "x"))) := by
  refine ⟨⟨longOwnerLine_split, by decide, not_mem_replicate 47 97 4096 (by decide), ?_,
    Parse_longOwnerLine⟩, by decide, by decide, by decide⟩
  intro h
  rcases List.mem_append.mp h with h | h
  · rcases header_replicate_mem _ _ _ h with h | h <;> revert h <;> decide
  · revert h
    decide

/-- C18 (as stated) fails: `longExtraLine` is one line without newline, with
exactly three tab-separated fields, a valid permission field and the
owner/group field `u/g/extra` of three parts, and `Parse` of it followed by a
newline returns an error, for the 21 bytes after the first 4096; and `Parse` of
`----------\tu/g/extra\t/a\nx\n`, whose first line is such a line, returns an
error, for the second line. -/
theorem Parse_error_with_extra_owner_parts :
    (Split 9 longExtraLine = [ascii "----------", ascii "u/g/extra", List.replicate 4096 97] ∧
      parsePerms (ascii "----------") = .ok 0 ∧
      Split 47 (ascii "u/g/extra") = [ascii "u", ascii "g", ascii "extra"] ∧
      10 ∉ longExtraLine ∧
      Parse (longExtraLine ++ [10]) = .error (.improperlySeparated (List.replicate 21 97))) ∧
    (Split 9 (ascii "----------\tu/g/extra\t/a")
        = [ascii "----------", ascii "u/g/extra", ascii "/a"] ∧
      Parse (ascii "----------\tu/g/extra\t/a\nx\n")
        = .error (.improperlySeparated (ascii "x"))) := by
  refine ⟨⟨longExtraLine_split, by decide, by decide, ?_, Parse_longExtraLine⟩,
    by decide, by decide⟩
  intro h
  rcases header_replicate_mem _ _ _ h with h | h <;> revert h <;> decide

/-! ## Lines that Parse does not return as written (claim C4) -/

/-- C4 (as stated) fails: the line `----------\tu/g\t/a\r` has exactly three
tab-separated fields, the last one `/a\r`, a valid permission field and the
owner/group field `u/g`, and `Parse` of it followed by a newline returns the
path `/a`, not field 2 verbatim; `longLine` is one line without newline, with
exactly three tab-separated fields, and `Parse` of it followed by a newline
returns an error; and `cutRecord` is a line of 4095 bytes with exactly three
tab-separated fields, and `Parse` of it followed by `\r\n` returns an error. -/
theorem Parse_not_verbatim_or_rejects :
    (isEntryOfLine (ascii "----------\tu/g\t/a\r") ⟨0, ascii "/a\r", ascii "u", ascii "g"⟩ ∧
      Parse (ascii "----------\tu/g\t/a\r" ++ [10])
        = .ok { entries := [⟨0, ascii "/a", ascii "u", ascii "g"⟩] } ∧
      ascii "/a" ≠ ascii "/a\r") ∧
    (isEntryOfLine longLine longEntry ∧ 10 ∉ longLine ∧
      Parse (longLine ++ [10]) = .error (.improperlySeparated (List.replicate 15 97))) ∧
    (isEntryOfLine cutRecord cutRecordEntry ∧ cutRecord.length = 4095 ∧
      Parse (cutRecord ++ [13, 10]) = .error (.improperlySeparated [])) := by
  have hp : parsePerms (ascii "----------") = .ok 0 := by decide
  have ho : Split 47 (ascii "u/g") = [ascii "u", ascii "g"] := by decide
  refine ⟨⟨⟨ascii "----------", ascii "u/g", ascii "/a\r", by decide, hp, ho, rfl⟩,
    by decide, by decide⟩, ⟨isEntryOfLine_longLine, ?_, Parse_longLine⟩,
    isEntryOfLine_cutRecord, cutRecord_length, Parse_cutRecord_crlf⟩
  intro h
  rcases List.mem_append.mp h with h | h
  · revert h
    decide
  · exact not_mem_replicate 10 97 4096 (by decide) h
